import Mathlib

/-!
# Verification of the Fuzzy-Matcher record-linkage engine

A shallow embedding of the core matching engine of the repository
(`src/matcher/engine/matcher.py`, `name_normalizer.py`, `date_normalizer.py`,
`record_linkage_matcher.py`, `constants.py`) together with proofs about the
specification's claims.

Modelling conventions:
* Python `float` arithmetic is modelled by exact rational arithmetic (`ℚ`);
  Python's banker-rounding `round` is `pyRound` below.
* External libraries (rapidfuzz, sentence-transformers, metaphone,
  recordlinkage, unicodedata) are not part of this repository; their entry
  points are parameters of the embedding (`ExtLib`, oracle arguments), with
  the properties actually used stated as explicit hypotheses.
* `pandas.DataFrame` tables are modelled as lists of rows with positional
  indices (the default `RangeIndex`).
-/

namespace FuzzyMatcher

/-! ## Python primitives -/

/-- Python's built-in `round` (banker's rounding, round-half-to-even) on a
rational, as used in `int(round(x))` throughout `matcher.py`. -/
def pyRound (q : ℚ) : ℤ :=
  if q - ⌊q⌋ < 1/2 then ⌊q⌋
  else if 1/2 < q - ⌊q⌋ then ⌊q⌋ + 1
  else if ⌊q⌋ % 2 = 0 then ⌊q⌋ else ⌊q⌋ + 1

/-- Python truthiness of an `Optional[str]` attribute (`None` and `""` are
falsy; any other string is truthy). -/
def truthy : Option String → Bool
  | none => false
  | some s => s ≠ ""

/-- Python `str.isspace`-style whitespace characters relevant to `strip` and
the `\s` regex class (ASCII fragment). -/
def pyIsSpace (c : Char) : Bool :=
  c = ' ' ∨ c = '\t' ∨ c = '\n' ∨ c = '\r' ∨ c = '\x0b' ∨ c = '\x0c'

/-- Python `str.strip()` on the character list. -/
def pyStripL (cs : List Char) : List Char :=
  ((cs.dropWhile pyIsSpace).reverse.dropWhile pyIsSpace).reverse

/-- Python `str.strip()`. -/
def pyStrip (s : String) : String := ⟨pyStripL s.data⟩

/-- Python `str.lower()` (ASCII fragment of Unicode lowercasing). -/
def pyLower (s : String) : String := ⟨s.data.map Char.toLower⟩

/-! ## `name_normalizer.py` -/

/-- The punctuation class of `basic_clean`'s regex `[\.,;:!\?\-_/\\]+`. -/
def isNamePunct (c : Char) : Bool :=
  c = '.' ∨ c = ',' ∨ c = ';' ∨ c = ':' ∨ c = '!' ∨ c = '?' ∨
  c = '-' ∨ c = '_' ∨ c = '/' ∨ c = '\\'

/-- `re.sub(r"[\.,;:!\?\-_/\\]+", " ", text)`: each punctuation character is
turned into a space (the run-to-one-space collapse performed by the regex is
subsumed by the following `\s+` collapse). -/
def replacePunct (cs : List Char) : List Char :=
  cs.map fun c => if isNamePunct c then ' ' else c

/-- `re.sub(r"\s+", " ", text)`: collapse every whitespace run to a single
space character. -/
def collapseWsAux : List Char → Bool → List Char
  | [], _ => []
  | c :: rest, inRun =>
    if pyIsSpace c then
      if inRun then collapseWsAux rest true
      else ' ' :: collapseWsAux rest true
    else c :: collapseWsAux rest false

def collapseWs (cs : List Char) : List Char := collapseWsAux cs false

/-- `basic_clean` from `name_normalizer.py`: strip, lowercase, replace
punctuation with spaces, collapse whitespace, strip. -/
def basic_clean (s : String) : String :=
  ⟨pyStripL (collapseWs (replacePunct ((pyStripL s.data).map Char.toLower)))⟩

/-- `squeeze_repeats`: `re.sub(r"(.)\1{2,}", r"\1\1", text)` — collapse every
run of three or more identical characters to two.  The regex dot does not
match a newline, hence the `'\n'` exception. -/
def squeezeRepeatsL : List Char → List Char
  | [] => []
  | [a] => [a]
  | [a, b] => [a, b]
  | a :: b :: c :: rest =>
    if a = b ∧ b = c ∧ a ≠ '\n' then squeezeRepeatsL (b :: c :: rest)
    else a :: squeezeRepeatsL (b :: c :: rest)

def squeeze_repeats (s : String) : String := ⟨squeezeRepeatsL s.data⟩

/-- `FIRST_NAME_VARIANTS` table. -/
def firstNameVariants : List (String × String) :=
  [("mo", "mohamed"), ("mohammed", "mohamed"), ("muhammad", "mohamed"),
   ("muhammed", "mohamed"), ("mohammad", "mohamed"),
   ("alex", "alexander"), ("tony", "anthony"), ("mike", "michael"),
   ("mikey", "michael"), ("tom", "thomas"), ("johnny", "john"), ("jon", "john")]

/-- `COMPOUND_SURNAME_PREFIXES` set. -/
def compoundSurnameWords : List String :=
  ["van", "der", "de", "la", "del", "di", "da", "dos", "el", "al", "abu"]

/-- The token-merging scan of `normalize_component`: a token from the
compound-surname set that is not the last token is merged with the following
token (both consumed, no re-scan). -/
def joinCompound : List String → List String
  | [] => []
  | [p] => [p]
  | p :: q :: rest =>
    if p ∈ compoundSurnameWords then (p ++ " " ++ q) :: joinCompound rest
    else p :: joinCompound (q :: rest)

/-- `normalize_component(text, enable_compound)`.  `sa` stands for
`strip_accents`, which defers entirely to Python's `unicodedata` tables and is
therefore a parameter of the embedding (on ASCII input it is the identity). -/
def normalize_component (sa : String → String) (text : String)
    (enableCompound : Bool) : String :=
  if text = "" then ""
  else
    let t := basic_clean (squeeze_repeats (sa (pyStrip text)))
    if t = "" then ""
    else if enableCompound then
      -- after `basic_clean` the string has single interior spaces and no
      -- surrounding whitespace, so `str.split()` is `splitOn " "`
      let parts := t.splitOn " "
      if parts.length > 1 then String.intercalate " " (joinCompound parts)
      else t
    else t

/-- `canonical_first_name`. -/
def canonical_first_name (sa : String → String) (first : String) : String :=
  if first = "" then ""
  else
    let f := basic_clean (sa first)
    match firstNameVariants.lookup f with
    | some v => v
    | none => f

/-- The letter→digit table of `soundex_code`. -/
def soundexDigit (c : Char) : String :=
  if c = 'b' ∨ c = 'f' ∨ c = 'p' ∨ c = 'v' then "1"
  else if c = 'c' ∨ c = 'g' ∨ c = 'j' ∨ c = 'k' ∨ c = 'q' ∨ c = 's' ∨ c = 'x' ∨ c = 'z' then "2"
  else if c = 'd' ∨ c = 't' then "3"
  else if c = 'l' then "4"
  else if c = 'm' ∨ c = 'n' then "5"
  else if c = 'r' then "6"
  else ""

/-- The de-duplication loop of `soundex_code`: keep a digit when it is
non-empty and differs from the immediately preceding code (`prev` is updated
on every iteration, also by unmapped letters). -/
def soundexFilter : List String → String → List String
  | [], _ => []
  | d :: rest, prev =>
    (if d ≠ "" ∧ d ≠ prev then [d] else []) ++ soundexFilter rest d

/-- `soundex_code` from `name_normalizer.py`. -/
def soundex_code (sa : String → String) (name : String) : String :=
  if name = "" then ""
  else
    let cleaned := basic_clean (sa name)
    if cleaned = "" then ""
    else
      let firstLetter : List Char := (cleaned.data.take 1).map Char.toUpper
      let digits := (cleaned.data.drop 1).filter Char.isAlpha |>.map soundexDigit
      let filtered := soundexFilter digits ""
      let codeStr : List Char := firstLetter ++ (String.join filtered).data
      ⟨(codeStr ++ ['0', '0', '0']).take 4⟩

/-! ## External similarity libraries

`matcher.py` calls rapidfuzz (`fuzz.partial_ratio`, `fuzz.WRatio`,
`fuzz.token_sort_ratio`, `JaroWinkler.similarity`), the optional
sentence-transformers model, the optional `metaphone.doublemetaphone`
codec, and `unicodedata` (via `strip_accents`).  These are external
dependencies, so the embedding takes them as parameters. -/

structure ExtLib where
  /-- `fuzz.partial_ratio` (a float in `[0,100]`). -/
  pr : String → String → ℚ
  /-- `fuzz.WRatio`. -/
  wr : String → String → ℚ
  /-- `fuzz.token_sort_ratio`. -/
  ts : String → String → ℚ
  /-- `JaroWinkler.similarity` (a float in `[0,1]`). -/
  jw : String → String → ℚ
  /-- The lazily-loaded sentence-transformers model: `none` models both
  `HAS_SEMANTIC == False` and a failed model load; `.error` models a runtime
  failure of `encode`/`cosine_similarity`. -/
  semantic : Option (String → String → Except Unit ℚ)
  /-- `HAS_METAPHONE`. -/
  hasMetaphone : Bool
  /-- `metaphone.doublemetaphone` (primary code, secondary code). -/
  dm : String → String × String
  /-- `strip_accents` (defers to `unicodedata`; the identity on ASCII). -/
  sa : String → String

/-- The properties of the external libraries that the development relies on;
each is a documented property of the real dependency. -/
structure SaneLib (L : ExtLib) : Prop where
  pr_range : ∀ a b, 0 ≤ L.pr a b ∧ L.pr a b ≤ 100
  wr_range : ∀ a b, 0 ≤ L.wr a b ∧ L.wr a b ≤ 100
  ts_range : ∀ a b, 0 ≤ L.ts a b ∧ L.ts a b ≤ 100
  jw_range : ∀ a b, 0 ≤ L.jw a b ∧ L.jw a b ≤ 1
  pr_self : ∀ a, L.pr a a = 100
  wr_self : ∀ a, L.wr a a = 100
  ts_self : ∀ a, L.ts a a = 100
  jw_self : ∀ a, L.jw a a = 1
  jw_right_empty : ∀ a, a ≠ "" → L.jw a "" = 0
  sem_range : ∀ f a b q, L.semantic = some f → f a b = Except.ok q → 0 ≤ q ∧ q ≤ 1
  sem_self : ∀ f a, L.semantic = some f → f a a = Except.ok 1
  dm_empty : L.dm "" = ("", "")
  dm_primary_first : ∀ a, (L.dm a).1 = "" → (L.dm a).2 = ""

/-! ## `ScoringEngine`: the similarity algorithms of `matcher.py` -/

/-- `int(round(JaroWinkler.similarity(a, b) * 100))`, the recurring
Jaro-Winkler fallback expression. -/
def jwScore (L : ExtLib) (a b : String) : ℤ := pyRound (L.jw a b * 100)

/-- `_base_fuzzy(a, b, algorithm)`. -/
def base_fuzzy (L : ExtLib) (a b : String) (algorithm : String) : ℚ :=
  if a = "" ∧ b = "" then 100
  else if a = "" ∨ b = "" then 0
  else if algorithm = "Partial Ratio" then L.pr a b
  else if algorithm = "Jaro-Winkler" then (jwScore L a b : ℚ)
  else L.wr a b

/-- `_enhanced_fuzzy(a, b)`. -/
def enhanced_fuzzy (L : ExtLib) (a b : String) : ℤ :=
  if a = "" ∧ b = "" then 100
  else if a = "" ∨ b = "" then 0
  else pyRound (L.ts a b * (3/5) + L.pr a b * (2/5))

/-- `_ensemble_score(a, b)`. -/
def ensemble_score (L : ExtLib) (a b : String) : ℤ :=
  if a = "" ∧ b = "" then 100
  else if a = "" ∨ b = "" then 0
  else
    pyRound ((jwScore L a b : ℚ) * (7/20) + L.wr a b * (3/10) +
      L.ts a b * (1/5) + L.pr a b * (3/20))

/-- `_semantic_score(a, b)`: embedding cosine similarity with Jaro-Winkler
fallback when the model is unavailable or raises. -/
def semantic_score (L : ExtLib) (a b : String) : ℤ :=
  match L.semantic with
  | none => jwScore L a b
  | some sem =>
    match sem a b with
    | Except.ok s => pyRound (s * 100)
    | Except.error _ => jwScore L a b

/-- `_double_metaphone_score(a, b)`: Double Metaphone with a Soundex-equality
fallback when the metaphone library is absent.  The cross-match disjunction is
embedded exactly as written in the source (its second disjunct compares the
two primary codes). -/
def double_metaphone_score (L : ExtLib) (a b : String) : ℤ :=
  if ¬ L.hasMetaphone then
    let code1 := soundex_code L.sa a
    let code2 := soundex_code L.sa b
    if code1 ≠ "" ∧ code1 = code2 then 100 else 0
  else
    let dm1 := L.dm a
    let dm2 := L.dm b
    if dm1.1 ≠ "" ∧ dm2.1 ≠ "" ∧ dm1.1 = dm2.1 then 100
    else if dm1.2 ≠ "" ∧ dm2.2 ≠ "" ∧ dm1.2 = dm2.2 then 90
    else if (dm1.1 ≠ "" ∧ dm2.2 ≠ "" ∧ dm1.1 = dm2.2) ∨
            (dm1.2 ≠ "" ∧ dm2.1 ≠ "" ∧ dm1.1 = dm2.1) then 85
    else jwScore L a b

/-- `MatchConfig` (the column-role strings are not needed by the embedding,
which works on structured rows). -/
structure MatchConfig where
  algorithm : String
  threshold : ℤ
  enablePreNorm : Bool
  enableEnhancedFuzzy : Bool
  enableDateBonus : Bool
  enablePhonetic : Bool
  enableVariants : Bool
  enableDoubleSurname : Bool
  enableSafeMissing : Bool
  showAllMatches : Bool
  dateToleranceDays : ℤ
  enableMultiPass : Bool
deriving DecidableEq

/-- `_fuzzy_score(a, b, cfg)`: algorithm dispatch. -/
def fuzzy_score (L : ExtLib) (cfg : MatchConfig) (a b : String) : ℚ :=
  if cfg.enableEnhancedFuzzy ∧ cfg.algorithm ≠ "Ensemble" then
    (enhanced_fuzzy L a b : ℚ)
  else if cfg.algorithm = "Ensemble" then (ensemble_score L a b : ℚ)
  else if cfg.algorithm = "Semantic Matching" then (semantic_score L a b : ℚ)
  else if cfg.algorithm = "Double Metaphone" then (double_metaphone_score L a b : ℚ)
  else if cfg.algorithm = "Record Linkage" then (jwScore L a b : ℚ)
  else base_fuzzy L a b cfg.algorithm

/-! ## `MatchEngine` pipeline: normalization, quick filter, detailed scoring -/

/-- `NormalizedRow` (pre-computed per-row data). -/
structure NormalizedRow where
  lastNorm : String
  firstNorm : String
  lastRaw : String
  firstRaw : String
  lastLen : ℕ
  firstLen : ℕ
  lastFirstChar : String
  firstFirstChar : String
  lastSoundex : Option String
  firstSoundex : Option String
deriving DecidableEq

/-- `_prepare_name(last, first, cfg)`. -/
def prepare_name (L : ExtLib) (cfg : MatchConfig) (last first : String) :
    String × String :=
  let lastNorm :=
    if cfg.enablePreNorm then normalize_component L.sa last cfg.enableDoubleSurname
    else pyLower (pyStrip last)
  let firstNormRaw :=
    if cfg.enablePreNorm then normalize_component L.sa first false
    else pyLower (pyStrip first)
  let firstNorm :=
    if cfg.enableVariants then canonical_first_name L.sa firstNormRaw
    else firstNormRaw
  (lastNorm, firstNorm)

/-- The per-row body of `_precompute_normalized_data`. -/
def mkNormalizedRow (L : ExtLib) (cfg : MatchConfig) (lastRaw firstRaw : String) :
    NormalizedRow :=
  let p := prepare_name L cfg lastRaw firstRaw
  { lastNorm := p.1
    firstNorm := p.2
    lastRaw := lastRaw
    firstRaw := firstRaw
    lastLen := p.1.length
    firstLen := p.2.length
    lastFirstChar := ⟨p.1.data.take 1⟩
    firstFirstChar := ⟨p.2.data.take 1⟩
    lastSoundex :=
      if cfg.enablePhonetic ∧ p.1 ≠ "" then some (soundex_code L.sa p.1) else none
    firstSoundex :=
      if cfg.enablePhonetic ∧ p.2 ≠ "" then some (soundex_code L.sa p.2) else none }

/-- `|lenA - lenB| / max(lenA, lenB, 1)` (float division modelled on `ℚ`). -/
def lenDiffFrac (a b : ℕ) : ℚ :=
  |(a:ℚ) - (b:ℚ)| / (max a (max b 1) : ℕ)

/-- `MAX_NAME_LENGTH_DIFF_RATIO` from `constants.py`. -/
def maxNameLenDiff : ℚ := 1/2

/-- `_quick_filter(t1_norm, t2_norm, cfg)`; `true` means the candidate
proceeds to detailed scoring. -/
def quick_filter (t1n t2n : NormalizedRow) (cfg : MatchConfig) : Bool :=
  if t1n.lastNorm = "" ∧ t1n.firstNorm = "" then false
  else if t2n.lastNorm = "" ∧ t2n.firstNorm = "" then false
  else if cfg.enableSafeMissing ∧ (t1n.lastNorm = "" ∨ t2n.lastNorm = "") then false
  else if t1n.lastNorm ≠ "" ∧ t2n.lastNorm ≠ "" ∧
      lenDiffFrac t1n.lastLen t2n.lastLen > maxNameLenDiff then false
  else if t1n.firstNorm ≠ "" ∧ t2n.firstNorm ≠ "" ∧
      lenDiffFrac t1n.firstLen t2n.firstLen > maxNameLenDiff then false
  else if t1n.lastNorm ≠ "" ∧ t2n.lastNorm ≠ "" ∧
      t1n.lastFirstChar ≠ "" ∧ t2n.lastFirstChar ≠ "" ∧
      t1n.lastFirstChar ≠ t2n.lastFirstChar then
    -- first characters differ: pass only when phonetic codes match
    if cfg.enablePhonetic ∧ truthy t1n.lastSoundex ∧ truthy t2n.lastSoundex then
      t1n.lastSoundex = t2n.lastSoundex
    else false
  else true

/-- The date-proximity boost applied to each name score: `+3` capped at 100
on an exact date match, `+1` capped at 100 within tolerance. -/
def nameBoost (dateDiff tol : ℤ) (score : ℚ) : ℚ :=
  if dateDiff = 0 then min 100 (score + 3)
  else if dateDiff ≤ tol then min 100 (score + 1)
  else score

/-- The adaptive weighting block of `_detailed_scoring`: default 50/50; when
one side's share of the total character length exceeds 0.6, shift its weight
up, capped at 70/30.  `lastLens`/`firstLens` are the summed lengths of the
two last names and the two first names. -/
def adaptiveWeights (lastLens firstLens : ℕ) : ℚ × ℚ :=
  if lastLens + firstLens > 0 then
    if ((lastLens : ℚ) / ((lastLens + firstLens : ℕ) : ℚ)) > 3/5 then
      (min (7/10) ((lastLens : ℚ) / ((lastLens + firstLens : ℕ) : ℚ)),
       1 - min (7/10) ((lastLens : ℚ) / ((lastLens + firstLens : ℕ) : ℚ)))
    else if ((firstLens : ℚ) / ((lastLens + firstLens : ℕ) : ℚ)) > 3/5 then
      (1 - min (7/10) ((firstLens : ℚ) / ((lastLens + firstLens : ℕ) : ℚ)),
       min (7/10) ((firstLens : ℚ) / ((lastLens + firstLens : ℕ) : ℚ)))
    else (1/2, 1/2)
  else (1/2, 1/2)

/-- The combination block of `_detailed_scoring`: the last-name score alone
on the safe-missing path, otherwise the rounded weighted average
(`int(round(...))`). -/
def combineScores (cfg : MatchConfig) (t1n t2n : NormalizedRow)
    (lastScore firstScore : ℚ) : ℚ :=
  if cfg.enableSafeMissing ∧ (t1n.firstNorm = "" ∨ t2n.firstNorm = "") then
    lastScore
  else
    ((pyRound (lastScore *
        (adaptiveWeights (t1n.lastLen + t2n.lastLen)
          (t1n.firstLen + t2n.firstLen)).1 +
      firstScore *
        (adaptiveWeights (t1n.lastLen + t2n.lastLen)
          (t1n.firstLen + t2n.firstLen)).2) : ℤ) : ℚ)

/-- The date-matching bonus on the combined score: `+10` capped at 100 on an
exact match, `+5` within tolerance, when enabled. -/
def dateBonus (cfg : MatchConfig) (dateDiff : ℤ) (combined : ℚ) : ℚ :=
  if cfg.enableDateBonus then
    if dateDiff = 0 then min 100 (combined + 10)
    else if dateDiff ≤ cfg.dateToleranceDays then min 100 (combined + 5)
    else combined
  else combined

/-- The phonetic rescue: `+15` capped at 100 when the combined score is still
under the threshold and the last-name phonetic codes match (both must be
truthy in the Python sense). -/
def phoneticRescue (cfg : MatchConfig) (t1n t2n : NormalizedRow)
    (combined : ℚ) : ℚ :=
  if cfg.enablePhonetic ∧ combined < (cfg.threshold : ℚ) ∧
      truthy t1n.lastSoundex ∧ truthy t2n.lastSoundex ∧
      t1n.lastSoundex = t2n.lastSoundex then
    min 100 (combined + 15)
  else combined

/-- `_detailed_scoring(t1_norm, t2_norm, date_diff, cfg)`, returning
`(last_score, first_score, combined)`.  Scores are rationals because the
rapidfuzz ratios are floats, and `combined = last_score` (a float) on the
safe-missing path. -/
def detailed_scoring (L : ExtLib) (cfg : MatchConfig) (t1n t2n : NormalizedRow)
    (dateDiff : ℤ) : ℚ × ℚ × ℚ :=
  let lastScore := nameBoost dateDiff cfg.dateToleranceDays
    (fuzzy_score L cfg t1n.lastNorm t2n.lastNorm)
  let firstScore := nameBoost dateDiff cfg.dateToleranceDays
    (if t1n.firstNorm ≠ "" ∨ t2n.firstNorm ≠ "" then
      fuzzy_score L cfg t1n.firstNorm t2n.firstNorm
    else 0)
  (lastScore, firstScore,
    phoneticRescue cfg t1n t2n
      (dateBonus cfg dateDiff (combineScores cfg t1n t2n lastScore firstScore)))

/-! ## Classification (`_get_confidence_band` and the two pass modes) -/

/-- `_get_confidence_band(score)` with the fixed thresholds of
`constants.py` (`90/80/70`). -/
def get_confidence_band (score : ℚ) : String × ℤ × ℤ :=
  if score ≥ 90 then ("High", 90, 100)
  else if score ≥ 80 then ("Medium", 80, 89)
  else if score ≥ 70 then ("Low", 70, 79)
  else ("Very Low", 0, 69)

/-- The classification step of `match_tables` (lines 604–625): multi-pass
tiers when enabled, otherwise confidence band plus effective threshold.
`none` means the candidate is discarded. -/
def classify_candidate (cfg : MatchConfig) (dateDiff : ℤ) (combined : ℚ) :
    Option String :=
  if cfg.enableMultiPass then
    if dateDiff = 0 ∧ combined ≥ (cfg.threshold : ℚ) then some "High"
    else if dateDiff ≤ cfg.dateToleranceDays ∧
        combined ≥ ((max 0 (cfg.threshold - 10) : ℤ) : ℚ) then some "Medium"
    else if dateDiff ≤ cfg.dateToleranceDays ∧
        combined ≥ ((max 0 (cfg.threshold - 15) : ℤ) : ℚ) then some "Low"
    else none
  else
    let conf := (get_confidence_band combined).1
    let effectiveThreshold : ℤ :=
      if dateDiff ≤ cfg.dateToleranceDays then max 0 (cfg.threshold - 8)
      else cfg.threshold
    if combined < (effectiveThreshold : ℚ) then none else some conf

/-! ## `match_tables`: the standard (non-Record-Linkage) pipeline

Tables are lists of rows carrying the name fields and the already-parsed
canonical date (`t1["__date"]` / `t2["__date_key"]`), as an abstract day
number; positional indices model the default `RangeIndex`.  Result rows keep
the provenance (primary index, secondary index) instead of the prefixed
column copies, plus the score and confidence fields of the output schema. -/

structure T1Row where
  last : String
  first : String
  date : Option ℤ
deriving DecidableEq

structure T2Row where
  last : String
  first : String
  date : Option ℤ
deriving DecidableEq

structure ResultRow where
  i1 : ℕ
  i2 : Option ℕ
  lastScore : Option ℚ
  firstScore : Option ℚ
  combined : Option ℚ
  confidence : String
deriving DecidableEq

/-- A surviving `CandidatePair` as stored in `matching_rows`. -/
structure Cand where
  i2 : ℕ
  lastScore : ℚ
  firstScore : ℚ
  combined : ℚ
  dateDiff : ℤ
  confidence : String
deriving DecidableEq

/-- `df.iterrows()` with the default `RangeIndex`, starting at `i`. -/
def enumFrom (i : ℕ) : List α → List (ℕ × α)
  | [] => []
  | a :: l => (i, a) :: enumFrom (i + 1) l

/-- `t2_by_date[d]`: the secondary rows whose parsed date equals `d`, in
table order (`setdefault(...).append` preserves iteration order). -/
def dateBucket (t2e : List (ℕ × T2Row)) (d : ℤ) : List (ℕ × T2Row) :=
  t2e.filter fun p => p.2.date = some d

/-- The candidate collection loop: exact date first, then each offset
`1..tolerance`, minus side before plus side.  Every row sits in exactly one
date bucket and positional indices are distinct, so the source's
`seen_indices` set never removes anything and the concatenation is exact. -/
def candidatesFor (t2e : List (ℕ × T2Row)) (tol : ℤ) (d1 : ℤ) :
    List (ℕ × T2Row) :=
  dateBucket t2e d1 ++
    (List.range tol.toNat).flatMap fun k =>
      dateBucket t2e (d1 - ((k:ℤ) + 1)) ++ dateBucket t2e (d1 + ((k:ℤ) + 1))

/-- The candidate loop body (lines 584–628): date-diff, quick filter,
detailed scoring, classification; `none` when the candidate is skipped. -/
def scoreCandidate (L : ExtLib) (cfg : MatchConfig) (t1n : NormalizedRow)
    (d1 : ℤ) (c : ℕ × T2Row) : Option Cand :=
  match c.2.date with
  | none => none
  | some d2 =>
    if ¬ quick_filter t1n (mkNormalizedRow L cfg c.2.last c.2.first) cfg then
      none
    else
      match classify_candidate cfg |d1 - d2|
        (detailed_scoring L cfg t1n (mkNormalizedRow L cfg c.2.last c.2.first)
          |d1 - d2|).2.2 with
      | none => none
      | some conf =>
        some ⟨c.1,
          (detailed_scoring L cfg t1n
            (mkNormalizedRow L cfg c.2.last c.2.first) |d1 - d2|).1,
          (detailed_scoring L cfg t1n
            (mkNormalizedRow L cfg c.2.last c.2.first) |d1 - d2|).2.1,
          (detailed_scoring L cfg t1n
            (mkNormalizedRow L cfg c.2.last c.2.first) |d1 - d2|).2.2,
          |d1 - d2|, conf⟩

/-- The replacement policy of the show-all per-row dedup (`seen_pairs`):
prefer an exact date match, then a higher combined score. -/
def betterMatch (old new : Cand) : Cand :=
  if new.dateDiff = 0 ∧ old.dateDiff ≠ 0 then new
  else if old.dateDiff = 0 ∧ new.dateDiff ≠ 0 then old
  else if new.combined > old.combined then new
  else old

/-- The `seen_pairs` dict fold: one entry per secondary index, first-insertion
order, updated in place by `betterMatch`. -/
def dedupCandsAux : List Cand → List Cand → List Cand
  | acc, [] => acc
  | acc, c :: rest =>
    if acc.any (fun o => o.i2 = c.i2) then
      dedupCandsAux (acc.map fun o => if o.i2 = c.i2 then betterMatch o c else o) rest
    else dedupCandsAux (acc ++ [c]) rest

def dedupCands (l : List Cand) : List Cand := dedupCandsAux [] l

/-- Strict comparison on the sort key `(date_diff, -combined)`. -/
def candKeyLT (d x : Cand) : Bool :=
  d.dateDiff < x.dateDiff ∨ (d.dateDiff = x.dateDiff ∧ d.combined > x.combined)

/-- Stable insertion preserving the original order of equal keys, matching
Python's stable `list.sort`. -/
def insertCand (x : Cand) : List Cand → List Cand
  | [] => [x]
  | d :: rest =>
    if candKeyLT d x then d :: insertCand x rest else x :: d :: rest

/-- `matching_rows.sort(key=lambda x: (x[5], -x[4]))`. -/
def sortCands : List Cand → List Cand
  | [] => []
  | x :: xs => insertCand x (sortCands xs)

/-- A merged output row for a retained candidate. -/
def mkMatchRow (i1 : ℕ) (c : Cand) : ResultRow :=
  ⟨i1, some c.i2, some c.lastScore, some c.firstScore, some c.combined, c.confidence⟩

/-- `_create_no_match_entry` (score fields empty, Confidence "No Match"). -/
def noMatchRow (i1 : ℕ) : ResultRow := ⟨i1, none, none, none, none, "No Match"⟩

/-- The emission loop over `rows_to_add` with the run-scoped
`global_seen_pairs` set (present only in show-all mode, where it is `some`).
Returns the updated set and the emitted rows. -/
def emitGlobal : Option (List (ℕ × ℕ)) → ℕ → List Cand →
    Option (List (ℕ × ℕ)) × List ResultRow
  | gs, _, [] => (gs, [])
  | none, i1, c :: rest =>
    ((emitGlobal none i1 rest).1,
     mkMatchRow i1 c :: (emitGlobal none i1 rest).2)
  | some seen, i1, c :: rest =>
    if (i1, c.i2) ∈ seen then emitGlobal (some seen) i1 rest
    else
      ((emitGlobal (some ((i1, c.i2) :: seen)) i1 rest).1,
       mkMatchRow i1 c :: (emitGlobal (some ((i1, c.i2) :: seen)) i1 rest).2)

/-- The candidate list of one primary row: the blocking-index lookups within
the date tolerance, guarded by the source's `date_tolerance_days >= 0` test. -/
def candidateList (cfg : MatchConfig) (t2e : List (ℕ × T2Row)) (d1 : ℤ) :
    List (ℕ × T2Row) :=
  if 0 ≤ cfg.dateToleranceDays then candidatesFor t2e cfg.dateToleranceDays d1
  else []

/-- The scored candidate list of one primary row: candidates within the date
tolerance, quick-filtered and detail-scored (`matching_rows`). -/
def rowMatchingList (L : ExtLib) (cfg : MatchConfig) (t2e : List (ℕ × T2Row))
    (r1 : T1Row) (d1 : ℤ) : List Cand :=
  (candidateList cfg t2e d1).filterMap
    (scoreCandidate L cfg (mkNormalizedRow L cfg r1.last r1.first) d1)

/-- The per-mode selection step: show-all keeps the per-row dedup result,
single-best keeps the first candidate of the stable sort. -/
def selectRows (cfg : MatchConfig) (matching : List Cand) : List Cand :=
  if cfg.showAllMatches then dedupCands matching
  else
    match sortCands matching with
    | [] => []
    | c :: _ => [c]

/-- One iteration of the primary-row loop (lines 523–696): the `NoDate`,
`NoCandidates`, scoring, selection and emission states. -/
def rowResults (L : ExtLib) (cfg : MatchConfig) (t2e : List (ℕ × T2Row))
    (gs : Option (List (ℕ × ℕ))) (i1 : ℕ) (r1 : T1Row) :
    Option (List (ℕ × ℕ)) × List ResultRow :=
  match r1.date with
  | none => (gs, if cfg.showAllMatches then [noMatchRow i1] else [])
  | some d1 =>
    if (candidateList cfg t2e d1).isEmpty then
      (gs, if cfg.showAllMatches then [noMatchRow i1] else [])
    else
      ((emitGlobal gs i1 (selectRows cfg (rowMatchingList L cfg t2e r1 d1))).1,
       (if cfg.showAllMatches ∧ (rowMatchingList L cfg t2e r1 d1).isEmpty then
          [noMatchRow i1] else []) ++
         (emitGlobal gs i1
           (selectRows cfg (rowMatchingList L cfg t2e r1 d1))).2)

/-- The primary-row loop threading the global dedup set. -/
def matchLoop (L : ExtLib) (cfg : MatchConfig) (t2e : List (ℕ × T2Row)) :
    List (ℕ × T1Row) → Option (List (ℕ × ℕ)) → List ResultRow
  | [], _ => []
  | p :: rest, gs =>
    let r := rowResults L cfg t2e gs p.1 p.2
    r.2 ++ matchLoop L cfg t2e rest r.1

/-- `match_tables` for every algorithm except "Record Linkage" (which is
routed to `match_with_recordlinkage` before this pipeline starts). -/
def match_tables_std (L : ExtLib) (cfg : MatchConfig)
    (t1 : List T1Row) (t2 : List T2Row) : List ResultRow :=
  if t1.isEmpty ∨ t2.isEmpty then []
  else
    matchLoop L cfg (enumFrom 0 t2) (enumFrom 0 t1)
      (if cfg.showAllMatches then some [] else none)

/-! ## `record_linkage_matcher.py`: the probabilistic linkage engine

The recordlinkage library is external.  Its acquisition and use inside the
`try:` block is modelled by an `Except`-valued parameter: `.error` stands for
any internal failure of the library machinery, which the source catches at
the strategy boundary and turns into an empty result.  The comparison step
follows the configured feature vector: Jaro-Winkler similarity thresholded at
0.7 for each name (binary feature) and exact equality of the parsed dates. -/

structure RLRow where
  last : String
  first : String
  date : Option ℤ
deriving DecidableEq

structure RLResult where
  i1 : ℕ
  r1 : RLRow
  r2 : Option (ℕ × RLRow)
  lastScore : Option ℤ
  firstScore : Option ℤ
  combined : Option ℤ
  confidence : String
deriving DecidableEq

/-- A thresholded comparison feature (`compare.string(..., threshold=0.7)`
and `compare.exact`): 1.0 or 0.0. -/
def rlFeature (b : Prop) [Decidable b] : ℚ := if b then 1 else 0

/-- The three feature values for a candidate pair. -/
def rlFeatures (sim : String → String → ℚ) (a : RLRow) (b : RLRow) : ℚ × ℚ × ℚ :=
  (rlFeature (sim a.last b.last ≥ 7/10),
   rlFeature (sim a.first b.first ≥ 7/10),
   rlFeature (a.date = b.date))

/-- `features.sum(axis=1)`. -/
def rlFeatureSum (sim : String → String → ℚ) (a b : RLRow) : ℚ :=
  (rlFeatures sim a b).1 + (rlFeatures sim a b).2.1 + (rlFeatures sim a b).2.2

/-- `indexer.block('__date')`: all pairs sharing a parsed date. -/
def rlPairs (t1c t2c : List (ℕ × RLRow)) : List ((ℕ × RLRow) × (ℕ × RLRow)) :=
  t1c.flatMap fun p => (t2c.filter fun q => p.2.date = q.2.date).map fun q => (p, q)

/-- The confidence bands of the record-linkage result loop. -/
def rlConfidence (combined : ℤ) : String :=
  if combined ≥ 90 then "High"
  else if combined ≥ 80 then "Medium"
  else if combined ≥ 70 then "Low"
  else "Very Low"

/-- One matched result row: the individual scores are
`int(feature * 100)` and `combined = int(feature_sum * 100)` (Python `int`
truncation; the operands are non-negative, so it is the floor). -/
def rlMkRow (sim : String → String → ℚ) (pq : (ℕ × RLRow) × (ℕ × RLRow)) :
    RLResult :=
  ⟨pq.1.1, pq.1.2, some pq.2,
    some ⌊(rlFeatures sim pq.1.2 pq.2.2).1 * 100⌋,
    some ⌊(rlFeatures sim pq.1.2 pq.2.2).2.1 * 100⌋,
    some ⌊((rlFeatures sim pq.1.2 pq.2.2).1 + (rlFeatures sim pq.1.2 pq.2.2).2.1 +
      (rlFeatures sim pq.1.2 pq.2.2).2.2) * 100⌋,
    rlConfidence ⌊((rlFeatures sim pq.1.2 pq.2.2).1 +
      (rlFeatures sim pq.1.2 pq.2.2).2.1 +
      (rlFeatures sim pq.1.2 pq.2.2).2.2) * 100⌋⟩

/-- The result-building loop with its `seen_pairs` dedup (active only when
`show_all_matches` is false, as written in the source). -/
def rlEmit (sim : String → String → ℚ) (showAll : Bool) :
    List ((ℕ × RLRow) × (ℕ × RLRow)) → List (ℕ × ℕ) → List RLResult
  | [], _ => []
  | pq :: rest, seen =>
    if ¬ showAll ∧ (pq.1.1, pq.2.1) ∈ seen then rlEmit sim showAll rest seen
    else rlMkRow sim pq :: rlEmit sim showAll rest ((pq.1.1, pq.2.1) :: seen)

/-- A "No Match" placeholder for an unmatched primary row (show-all mode). -/
def rlNoMatchRow (i1 : ℕ) (r1 : RLRow) : RLResult :=
  ⟨i1, r1, none, none, none, none, "No Match"⟩

/-- `t1_clean` / `t2_clean`: the rows whose date parsed, with their original
(positional) indices. -/
def rlClean (t : List RLRow) : List (ℕ × RLRow) :=
  (enumFrom 0 t).filter fun p => p.2.date.isSome

/-- `matches`: the blocked candidate pairs whose feature sum reaches the
threshold. -/
def rlHits (sim : String → String → ℚ) (t1 t2 : List RLRow) (threshold : ℚ) :
    List ((ℕ × RLRow) × (ℕ × RLRow)) :=
  (rlPairs (rlClean t1) (rlClean t2)).filter fun pq =>
    rlFeatureSum sim pq.1.2 pq.2.2 ≥ threshold

/-- The show-all sweep over the *original* primary table, adding a
"No Match" placeholder for every primary index absent from the matches. -/
def rlUnmatchedRows (sim : String → String → ℚ) (t1 t2 : List RLRow)
    (threshold : ℚ) : List RLResult :=
  ((enumFrom 0 t1).filter fun p =>
    ¬ (rlHits sim t1 t2 threshold).any fun pq => pq.1.1 = p.1).map fun p =>
      rlNoMatchRow p.1 p.2

/-- `match_with_recordlinkage`.  `hasRL` is `HAS_RECORDLINKAGE`; `simE` is
the library machinery of the `try:` block (see the section header).  Rows
whose date fails to parse are dropped before blocking; in show-all mode the
unmatched-row sweep runs over the original table. -/
def match_with_recordlinkage (hasRL : Bool)
    (simE : Except String (String → String → ℚ))
    (t1 t2 : List RLRow) (threshold : ℚ) (showAll : Bool) : List RLResult :=
  if ¬ hasRL then []
  else
    match simE with
    | Except.error _ => []
    | Except.ok sim =>
      if (rlClean t1).isEmpty ∨ (rlClean t2).isEmpty then []
      else if (rlPairs (rlClean t1) (rlClean t2)).isEmpty then []
      else
        rlEmit sim showAll (rlHits sim t1 t2 threshold) [] ++
          (if showAll then rlUnmatchedRows sim t1 t2 threshold else [])

/-! ## `date_normalizer.py`

A calendar date.  The parsing strategies built on pandas/dateutil
(`pd.to_datetime` with `dayfirst=False`, with `dayfirst=True`, and the fuzzy
strategy) are external-library calls and are oracle parameters; the
repository-owned pieces (`_try_common_formats`'s `%Y-%m-%d` entry via
`strptime`, and `_regex_date_parse`) are embedded concretely.  Only the
calendar date matters for the claims (`.date()` is taken downstream), so the
time-of-day component is dropped. -/

structure DateD where
  year : ℕ
  month : ℕ
  day : ℕ
deriving DecidableEq

def isLeap (y : ℕ) : Bool := (y % 4 = 0 ∧ y % 100 ≠ 0) ∨ y % 400 = 0

def daysInMonth (y m : ℕ) : ℕ :=
  if m = 1 ∨ m = 3 ∨ m = 5 ∨ m = 7 ∨ m = 8 ∨ m = 10 ∨ m = 12 then 31
  else if m = 4 ∨ m = 6 ∨ m = 9 ∨ m = 11 then 30
  else if isLeap y then 29
  else 28

/-- The dates representable by Python `datetime.date`. -/
def ValidDate (d : DateD) : Prop :=
  1 ≤ d.year ∧ d.year ≤ 9999 ∧ 1 ≤ d.month ∧ d.month ≤ 12 ∧
    1 ≤ d.day ∧ d.day ≤ daysInMonth d.year d.month

instance (d : DateD) : Decidable (ValidDate d) := by
  unfold ValidDate; infer_instance

/-- Little-endian base-10 digits (fuel-based so that the kernel can reduce
it; `natDigitsAux n n` is total because `n / 10 < n` for `n > 0`). -/
def natDigitsAux : ℕ → ℕ → List ℕ
  | 0, _ => []
  | fuel + 1, n => if n = 0 then [] else n % 10 :: natDigitsAux fuel (n / 10)

def natDigits (n : ℕ) : List ℕ := natDigitsAux n n

def digitChar (d : ℕ) : Char := Char.ofNat (48 + d)

def digVal (c : Char) : ℕ := c.toNat - 48

/-- Zero-padded fixed-width decimal rendering (`f"{n:0{w}d}"`), as a char
list, most significant digit first. -/
def padChars (w n : ℕ) : List Char :=
  List.replicate (w - (natDigits n).length) '0' ++
    ((natDigits n).map digitChar).reverse

/-- The canonical ISO rendering `YYYY-MM-DD` of a date. -/
def isoRender (d : DateD) : String :=
  ⟨padChars 4 d.year ++ '-' :: (padChars 2 d.month ++ '-' :: padChars 2 d.day)⟩

/-- Big-endian decimal value of a digit-character list. -/
def parseNatChars (cs : List Char) : ℕ :=
  cs.foldl (fun acc c => 10 * acc + digVal c) 0

/-- Split a character list at every separator accepted by the pattern
(slash-or-dash, or just the dash for the `strptime` format where the dash is
a literal). -/
def splitSepsAux (sep : Char → Bool) : List Char → List Char → List (List Char)
  | [], acc => [acc.reverse]
  | c :: rest, acc =>
    if sep c then acc.reverse :: splitSepsAux sep rest []
    else splitSepsAux sep rest (c :: acc)

def splitSeps (sep : Char → Bool) (cs : List Char) : List (List Char) :=
  splitSepsAux sep cs []

def allDigits (cs : List Char) : Bool := cs.all Char.isDigit

/-- `datetime.strptime(s, "%Y-%m-%d")` followed by the `datetime`
constructor's range validation: a 4-digit year, 1-2 digit month and day
separated by literal dashes, forming a real calendar date. -/
def strptimeYmd (s : String) : Option DateD :=
  match splitSeps (fun c => c = '-') s.data with
  | [ys, ms, ds] =>
    if allDigits ys ∧ ys.length = 4 ∧
        allDigits ms ∧ 1 ≤ ms.length ∧ ms.length ≤ 2 ∧
        allDigits ds ∧ 1 ≤ ds.length ∧ ds.length ≤ 2 then
      let d : DateD := ⟨parseNatChars ys, parseNatChars ms, parseNatChars ds⟩
      if ValidDate d then some d else none
    else none
  | _ => none

/-- `_try_common_formats`: the format list starts with `"%Y-%m-%d"`; the
remaining twenty formats are abstracted as a list of parsers tried in order
(each models one `strptime` format; all claims are settled for every such
list). -/
def tryFormats : List (String → Option DateD) → String → Option DateD
  | [], _ => none
  | f :: fs, s =>
    match f s with
    | some d => some d
    | none => tryFormats fs s

def tryCommonFormats (others : List (String → Option DateD)) (s : String) :
    Option DateD :=
  match strptimeYmd s with
  | some d => some d
  | none => tryFormats others s

/-- The label words stripped by `_regex_date_parse`'s
`re.sub(r'^(date|on|at|from|to):?\s*', ...)`, in alternation order. -/
def labelWords : List (List Char) := ["date".data, "on".data, "at".data, "from".data, "to".data]

def dropCaseless : List Char → List Char → Option (List Char)
  | [], cs => some cs
  | _, [] => none
  | w :: ws, c :: cs => if c.toLower = w then dropCaseless ws cs else none

def findLabelRest (cs : List Char) : List (List Char) → Option (List Char)
  | [] => none
  | w :: ws =>
    match dropCaseless w cs with
    | some rest => some rest
    | none => findLabelRest cs ws

/-- Strip one leading label word, an optional colon, and following
whitespace (the anchored `re.sub` fires at most once). -/
def stripLabelWord (cs : List Char) : List Char :=
  match findLabelRest cs labelWords with
  | none => cs
  | some rest =>
    let rest2 := match rest with
      | ':' :: r => r
      | _ => rest
    rest2.dropWhile pyIsSpace

/-- The guarded `datetime(year, month, day)` constructor call of
`_regex_date_parse`: the explicit `1<=month<=12 and 1<=day<=31` test plus
the `ValueError` branch of the constructor. -/
def tryMkDate (year month day : ℕ) : Option DateD :=
  if 1 ≤ month ∧ month ≤ 12 ∧ 1 ≤ day ∧ day ≤ 31 ∧
      ValidDate ⟨year, month, day⟩ then some ⟨year, month, day⟩
  else none

/-- `for day, month in [(d1, d2), (d2, d1)]: ...` — try both orderings of an
ambiguous two-number date, first number as the day first. -/
def tryBothOrders (year d1 d2 : ℕ) : Option DateD :=
  match tryMkDate year d2 d1 with
  | some d => some d
  | none => tryMkDate year d1 d2

def isDateSep (c : Char) : Bool := c = '/' ∨ c = '-'

/-- Pattern 1: one or two digits, a slash-or-dash separator, one or two
digits, a separator, four digits, anchored at both ends. -/
def regexPat1 (cs : List Char) : Option DateD :=
  match splitSeps isDateSep cs with
  | [a, b, y] =>
    if allDigits a ∧ 1 ≤ a.length ∧ a.length ≤ 2 ∧
        allDigits b ∧ 1 ≤ b.length ∧ b.length ≤ 2 ∧
        allDigits y ∧ y.length = 4 then
      tryBothOrders (parseNatChars y) (parseNatChars a) (parseNatChars b)
    else none
  | _ => none

/-- Pattern 2: as pattern 1 but with a two-digit year, pivoted at 30
(00-30 maps to the 2000s, 31-99 to the 1900s). -/
def regexPat2 (cs : List Char) : Option DateD :=
  match splitSeps isDateSep cs with
  | [a, b, y] =>
    if allDigits a ∧ 1 ≤ a.length ∧ a.length ≤ 2 ∧
        allDigits b ∧ 1 ≤ b.length ∧ b.length ≤ 2 ∧
        allDigits y ∧ y.length = 2 then
      let yy := parseNatChars y
      let year := if yy ≤ 30 then 2000 + yy else 1900 + yy
      tryBothOrders year (parseNatChars a) (parseNatChars b)
    else none
  | _ => none

/-- Pattern 3 (ISO): four digits, a slash-or-dash separator, one or two
digits, a separator, one or two digits, anchored at both ends. -/
def regexPat3 (cs : List Char) : Option DateD :=
  match splitSeps isDateSep cs with
  | [y, m, d] =>
    if allDigits y ∧ y.length = 4 ∧
        allDigits m ∧ 1 ≤ m.length ∧ m.length ≤ 2 ∧
        allDigits d ∧ 1 ≤ d.length ∧ d.length ≤ 2 then
      tryMkDate (parseNatChars y) (parseNatChars m) (parseNatChars d)
    else none
  | _ => none

/-- The trailing `(\d{1,2})` of pattern 4 (greedy, unanchored). -/
def p4Day : List Char → Option ℕ
  | [] => none
  | [c] => if c.isDigit then some (digVal c) else none
  | c :: d :: _ =>
    if c.isDigit then
      if d.isDigit then some (10 * digVal c + digVal d) else some (digVal c)
    else none

/-- The middle month group of pattern 4 (one or two digits followed by a
separator), greedy with one-step backtracking. -/
def p4MonthDay (cs : List Char) : Option (ℕ × ℕ) :=
  match cs with
  | m1 :: m2 :: rest =>
    if m1.isDigit then
      if m2.isDigit then
        match rest with
        | x :: rest2 =>
          if isDateSep x then
            match p4Day rest2 with
            | some d => some (10 * digVal m1 + digVal m2, d)
            | none => none
          else none
        | [] => none
      else if isDateSep m2 then
        match p4Day rest with
        | some d => some (digVal m1, d)
        | none => none
      else none
    else none
  | _ => none

/-- Pattern 4 at one start position: four digits, separator, one or two
digits, separator, one or two digits; not anchored. -/
def p4At (cs : List Char) : Option (ℕ × ℕ × ℕ) :=
  match cs with
  | a :: b :: c :: d :: e :: rest =>
    if a.isDigit ∧ b.isDigit ∧ c.isDigit ∧ d.isDigit ∧ isDateSep e then
      match p4MonthDay rest with
      | some md =>
        some (parseNatChars [a, b, c, d], md.1, md.2)
      | none => none
    else none
  | _ => none

/-- `re.search` for pattern 4: the first start position that matches. -/
def p4Search : List Char → Option (ℕ × ℕ × ℕ)
  | [] => none
  | c :: rest =>
    match p4At (c :: rest) with
    | some r => some r
    | none => p4Search rest

/-- `_regex_date_parse(date_str)`.  The four patterns are syntactically
mutually exclusive where it matters (a pattern that matches syntactically but
yields no valid calendar date falls through exactly as in the source). -/
def regex_date_parse (s : String) : Option DateD :=
  let cs := pyStripL (stripLabelWord s.data)
  match regexPat1 cs with
  | some d => some d
  | none =>
    match regexPat2 cs with
    | some d => some d
    | none =>
      match regexPat3 cs with
      | some d => some d
      | none =>
        match p4Search cs with
        | some (y, m, d) => tryMkDate y m d
        | none => none

/-- The pandas/dateutil strategies of `parse_date_safe` (strategies 1, 2 and
4), as oracles: `.error` models a raised exception. -/
structure DateOracles where
  monthFirst : String → Except Unit DateD
  dayFirst : String → Except Unit DateD
  fuzzy : String → Except Unit DateD
  otherFormats : List (String → Option DateD)

/-- `parse_date_safe` restricted to string input (the branch taken when the
value is not a null sentinel, an already-typed date, or a number): the
null-sentinel test, the four strategies in order, then the regex fallback. -/
def parse_date_safe_str (O : DateOracles) (s0 : String) : Option DateD :=
  let s := pyStrip s0
  if s = "" ∨ pyLower s = "nan" ∨ pyLower s = "none" ∨ pyLower s = "null" then
    none
  else
    match O.monthFirst s with
    | Except.ok d => some d
    | Except.error _ =>
      match O.dayFirst s with
      | Except.ok d => some d
      | Except.error _ =>
        match tryCommonFormats O.otherFormats s with
        | some d => some d
        | none =>
          match O.fuzzy s with
          | Except.ok d => some d
          | Except.error _ => regex_date_parse s

/-! ## Concrete instances used by witnesses and counterexamples -/

/-- A concrete external library: every similarity is the equality indicator.
It satisfies every property in `SaneLib`, and its Soundex/metaphone/accent
behaviour (`hasMetaphone = false`, `sa = id`) matches the real environment on
ASCII input with the optional libraries absent. -/
def eqLib : ExtLib where
  pr := fun a b => if a = b then 100 else 0
  wr := fun a b => if a = b then 100 else 0
  ts := fun a b => if a = b then 100 else 0
  jw := fun a b => if a = b then 1 else 0
  semantic := none
  hasMetaphone := false
  dm := fun _ => ("", "")
  sa := id

/-- A baseline configuration for concrete runs. -/
def exCfg : MatchConfig where
  algorithm := "Jaro-Winkler"
  threshold := 90
  enablePreNorm := false
  enableEnhancedFuzzy := false
  enableDateBonus := false
  enablePhonetic := false
  enableVariants := false
  enableDoubleSurname := false
  enableSafeMissing := false
  showAllMatches := false
  dateToleranceDays := 0
  enableMultiPass := true

/-! ## Claim C3: single-pass classification -/

/-- The claim's description of single-pass classification: the effective
threshold is reduced by exactly 8 only when the date-diff is within tolerance
but nonzero, and is the unreduced threshold when the date-diff is 0. -/
def claimedSinglePassClassify (threshold tol dateDiff : ℤ) (combined : ℚ) :
    Option String :=
  let eff : ℤ := if 0 < dateDiff ∧ dateDiff ≤ tol then threshold - 8 else threshold
  if combined < (eff : ℚ) then none else some (get_confidence_band combined).1

/-- The configuration of the C3 witness run: single-pass, threshold 80,
tolerance 2. -/
def c3Cfg : MatchConfig :=
  { exCfg with
    enableMultiPass := false
    threshold := 80
    dateToleranceDays := 2 }

/-- The configuration of the C4 witness run: multi-pass, tolerance 1. -/
def c4Cfg : MatchConfig :=
  { exCfg with dateToleranceDays := 1 }

/-- The equality-indicator similarity used in concrete Record Linkage runs. -/
def eqSim : String → String → ℚ := fun a b => if a = b then 1 else 0

def rlRowEx : RLRow := ⟨"smith", "ann", some 0⟩

def rlResultEx : RLResult :=
  ⟨0, rlRowEx, some (0, rlRowEx), some 100, some 100, some 300, "High"⟩

/-- The show-all configuration of the C10 witness. -/
def c10Cfg : MatchConfig := { exCfg with showAllMatches := true }

/-- Little-endian decimal value, the specification of `natDigits`. -/
def ofDigitsNat (l : List ℕ) : ℕ := l.foldr (fun d acc => d + 10 * acc) 0

/-- Soundness of an external parsing strategy on canonical ISO renderings:
it either raises (caught by `parse_date_safe`) or returns the rendered
date.  This is the documented behaviour of `pd.to_datetime` on `YYYY-MM-DD`
strings, for both `dayfirst` settings. -/
def OracleSound (f : String → Except Unit DateD) : Prop :=
  ∀ d : DateD, ValidDate d →
    f (isoRender d) = Except.ok d ∨ f (isoRender d) = Except.error ()

/-- The all-raising oracle set: every pandas strategy fails, so parsing goes
through the repository's own format list.  Trivially sound. -/
def errOracles : DateOracles :=
  ⟨fun _ => Except.error (), fun _ => Except.error (),
   fun _ => Except.error (), []⟩

/-! ## Theorems -/

theorem pyRound_eq_floor_or_succ (q : ℚ) : pyRound q = ⌊q⌋ ∨ pyRound q = ⌊q⌋ + 1 := by
  unfold pyRound
  split
  · exact Or.inl rfl
  · split
    · exact Or.inr rfl
    · split
      · exact Or.inl rfl
      · exact Or.inr rfl

theorem pyRound_nonneg {q : ℚ} (h : 0 ≤ q) : 0 ≤ pyRound q := by
  have hf : (0:ℤ) ≤ ⌊q⌋ := Int.floor_nonneg.mpr h
  rcases pyRound_eq_floor_or_succ q with h1 | h1 <;> omega

theorem pyRound_eq_succ_half_le {q : ℚ} (h : pyRound q = ⌊q⌋ + 1) : 1/2 ≤ q - ⌊q⌋ := by
  unfold pyRound at h
  split at h
  · omega
  · linarith [not_lt.mp (by assumption : ¬ q - ⌊q⌋ < 1/2)]

theorem pyRound_le {q : ℚ} {n : ℤ} (h : q ≤ (n:ℚ)) : pyRound q ≤ n := by
  have hf : ⌊q⌋ ≤ n := by
    have := Int.floor_le_floor h
    rwa [Int.floor_intCast] at this
  rcases pyRound_eq_floor_or_succ q with h1 | h1
  · omega
  · by_cases heq : ⌊q⌋ = n
    · have hfr : 1/2 ≤ q - ⌊q⌋ := pyRound_eq_succ_half_le h1
      have : ((n:ℚ)) ≤ q := by
        rw [← heq]; linarith
      have hq : q = (n:ℚ) := le_antisymm h this
      rw [hq] at h1
      rw [Int.floor_intCast] at h1
      rw [show pyRound (n:ℚ) = n from ?_] at h1
      · omega
      · unfold pyRound
        simp [Int.floor_intCast]
    · omega

theorem pyRound_intCast (n : ℤ) : pyRound (n:ℚ) = n := by
  unfold pyRound
  simp [Int.floor_intCast]

theorem saneEqLib : SaneLib eqLib := by
  constructor <;> intros <;> simp_all [eqLib] <;> split <;> norm_num

/-- C3 counterexample: with multi-pass disabled, threshold 50, tolerance 0, a
candidate with date-diff 0 and combined score 45 is *retained* by the code
(the 8-point reduction also applies at date-diff 0), while the claim's
description discards it against the unreduced threshold. -/
theorem C3_counterexample :
    classify_candidate
      { exCfg with enableMultiPass := false, threshold := 50 } 0 45 =
        some "Very Low" ∧
    claimedSinglePassClassify 50 0 0 45 = none := by
  constructor <;> decide

/-- The first component of `_get_confidence_band` written out. -/
theorem get_confidence_band_fst (combined : ℚ) :
    (get_confidence_band combined).1 =
      (if combined ≥ 90 then "High" else if combined ≥ 80 then "Medium"
        else if combined ≥ 70 then "Low" else "Very Low") := by
  unfold get_confidence_band
  by_cases h90 : combined ≥ 90 <;> by_cases h80 : combined ≥ 80 <;>
    by_cases h70 : combined ≥ 70 <;> simp [h90, h80, h70]

/-- C3 (amended): with multi-pass disabled, a candidate is retained exactly
when its combined score reaches `max 0 (threshold - 8)` whenever the
date-diff is within tolerance — including date-diff 0 — and the unreduced
threshold otherwise; retained candidates are labelled by the fixed bands
High≥90, Medium≥80, Low≥70, else Very Low. -/
theorem C3_theorem (cfg : MatchConfig) (h : cfg.enableMultiPass = false)
    (dateDiff : ℤ) (combined : ℚ) :
    classify_candidate cfg dateDiff combined =
      (if ((if dateDiff ≤ cfg.dateToleranceDays then max 0 (cfg.threshold - 8)
            else cfg.threshold : ℤ) : ℚ) ≤ combined then
        some (if combined ≥ 90 then "High"
          else if combined ≥ 80 then "Medium"
          else if combined ≥ 70 then "Low"
          else "Very Low")
      else none) := by
  unfold classify_candidate
  rw [h]
  simp only [Bool.false_eq_true, if_false, get_confidence_band_fst]
  by_cases hcc : ((if dateDiff ≤ cfg.dateToleranceDays
      then max 0 (cfg.threshold - 8) else cfg.threshold : ℤ) : ℚ) ≤ combined
  · rw [if_pos hcc, if_neg (not_lt.mpr hcc)]
  · rw [if_neg hcc, if_pos (not_le.mp hcc)]

/-- C3 witness: threshold 80, tolerance 2, date-diff 1, combined 75 is
retained as "Low" (75 reaches the reduced threshold 72). -/
theorem C3_witness :
    classify_candidate c3Cfg 1 75 = some "Low" := by
  rw [C3_theorem c3Cfg rfl 1 75]
  decide

/-! ## Claim C4: multi-pass classification -/

/-- C4 (confirmed): with multi-pass enabled and a non-negative combined score
(every pipeline score is non-negative), a candidate is retained as High
exactly when date-diff is 0 and combined reaches the threshold; otherwise as
Medium exactly when date-diff is within tolerance and combined reaches
threshold − 10; otherwise as Low exactly when date-diff is within tolerance
and combined reaches threshold − 15; and is discarded in every remaining
case. -/
theorem C4_theorem (cfg : MatchConfig) (h : cfg.enableMultiPass = true)
    (dateDiff : ℤ) (combined : ℚ) (hc : 0 ≤ combined) :
    (classify_candidate cfg dateDiff combined = some "High" ↔
      dateDiff = 0 ∧ (cfg.threshold : ℚ) ≤ combined) ∧
    (classify_candidate cfg dateDiff combined = some "Medium" ↔
      ¬ (dateDiff = 0 ∧ (cfg.threshold : ℚ) ≤ combined) ∧
      dateDiff ≤ cfg.dateToleranceDays ∧ (cfg.threshold : ℚ) - 10 ≤ combined) ∧
    (classify_candidate cfg dateDiff combined = some "Low" ↔
      ¬ (dateDiff = 0 ∧ (cfg.threshold : ℚ) ≤ combined) ∧
      ¬ (dateDiff ≤ cfg.dateToleranceDays ∧ (cfg.threshold : ℚ) - 10 ≤ combined) ∧
      dateDiff ≤ cfg.dateToleranceDays ∧ (cfg.threshold : ℚ) - 15 ≤ combined) ∧
    (classify_candidate cfg dateDiff combined = none ↔
      ¬ (dateDiff = 0 ∧ (cfg.threshold : ℚ) ≤ combined) ∧
      ¬ (dateDiff ≤ cfg.dateToleranceDays ∧ (cfg.threshold : ℚ) - 10 ≤ combined) ∧
      ¬ (dateDiff ≤ cfg.dateToleranceDays ∧ (cfg.threshold : ℚ) - 15 ≤ combined)) := by
  have e10 : (combined ≥ ((max 0 (cfg.threshold - 10) : ℤ) : ℚ)) ↔
      ((cfg.threshold : ℚ) - 10 ≤ combined) := by
    rw [ge_iff_le]
    push_cast
    rw [max_le_iff]
    exact ⟨fun hx => hx.2, fun hx => ⟨hc, hx⟩⟩
  have e15 : (combined ≥ ((max 0 (cfg.threshold - 15) : ℤ) : ℚ)) ↔
      ((cfg.threshold : ℚ) - 15 ≤ combined) := by
    rw [ge_iff_le]
    push_cast
    rw [max_le_iff]
    exact ⟨fun hx => hx.2, fun hx => ⟨hc, hx⟩⟩
  have hchar : classify_candidate cfg dateDiff combined =
      (if dateDiff = 0 ∧ (cfg.threshold : ℚ) ≤ combined then some "High"
        else if dateDiff ≤ cfg.dateToleranceDays ∧
            (cfg.threshold : ℚ) - 10 ≤ combined then some "Medium"
        else if dateDiff ≤ cfg.dateToleranceDays ∧
            (cfg.threshold : ℚ) - 15 ≤ combined then some "Low"
        else none) := by
    unfold classify_candidate
    rw [h]
    simp only [if_true]
    exact if_congr (and_congr_right fun _ => ge_iff_le) rfl
      (if_congr (and_congr_right fun _ => e10) rfl
        (if_congr (and_congr_right fun _ => e15) rfl rfl))
  rw [hchar]
  by_cases hA : dateDiff = 0 ∧ (cfg.threshold : ℚ) ≤ combined
  · rw [if_pos hA]
    simp [hA]
  · rw [if_neg hA]
    by_cases hB : dateDiff ≤ cfg.dateToleranceDays ∧
        (cfg.threshold : ℚ) - 10 ≤ combined
    · rw [if_pos hB]
      simp [hA, hB]
    · rw [if_neg hB]
      by_cases hC : dateDiff ≤ cfg.dateToleranceDays ∧
          (cfg.threshold : ℚ) - 15 ≤ combined
      · rw [if_pos hC]
        simp only [Option.some.injEq, String.reduceEq, iff_false, iff_true,
          not_and, not_not, false_iff, true_iff, not_false_eq_true,
          reduceCtorEq, and_true, and_false, true_and]
        have g1 : dateDiff = 0 → ¬ ((cfg.threshold : ℚ) ≤ combined) :=
          fun h0 hl => hA ⟨h0, hl⟩
        have g2 : dateDiff ≤ cfg.dateToleranceDays →
            ¬ ((cfg.threshold : ℚ) - 10 ≤ combined) :=
          fun hd hx => hB ⟨hd, hx⟩
        exact ⟨g1, fun _ => g2, ⟨g1, g2, hC⟩, fun _ _ h15 => h15 hC.1 hC.2⟩
      · rw [if_neg hC]
        have imp10 : dateDiff ≤ cfg.dateToleranceDays →
            combined + 10 < (cfg.threshold : ℚ) := by
          intro hd
          have := not_le.mp (show ¬ ((cfg.threshold : ℚ) - 10 ≤ combined) from
            fun hx => hB ⟨hd, hx⟩)
          linarith
        have imp15 : dateDiff ≤ cfg.dateToleranceDays →
            combined + 15 < (cfg.threshold : ℚ) := by
          intro hd
          have := not_le.mp (show ¬ ((cfg.threshold : ℚ) - 15 ≤ combined) from
            fun hx => hC ⟨hd, hx⟩)
          linarith
        simp [hA, hB, hC]
        exact ⟨imp10, fun _ => imp15, imp10, imp15⟩

/-- C4 witness at a concrete input: threshold 90, tolerance 1, date-diff 1,
combined 82 is retained as Medium. -/
theorem C4_witness :
    classify_candidate c4Cfg 1 82 = some "Medium" := by
  rw [(C4_theorem c4Cfg rfl 1 82 (by norm_num)).2.1]
  refine ⟨?_, by decide, by norm_num [c4Cfg, exCfg]⟩
  intro hx
  exact absurd hx.1 (by norm_num)

/-! ## Claim C6: the shape of `soundex_code` -/

/-- C6 counterexample: `"!"` is a non-empty input, yet `soundex_code`
returns the empty string for it (the cleaning step erases it entirely), not a
4-character code.  `strip_accents` is the identity on this ASCII input. -/
theorem C6_counterexample :
    ("!" : String) ≠ "" ∧ soundex_code id "!" = "" := by
  constructor <;> decide

/-- C6 (amended): `soundex_code` returns the empty string for empty input
*and for any input that the accent-strip/clean step reduces to the empty
string*; for every input whose cleaned form is non-empty it returns exactly 4
characters (uppercased first letter, mapped digits with adjacent repeats
collapsed and unmapped letters dropped, zero-padded or truncated to 4). -/
theorem C6_theorem (sa : String → String) (name : String) :
    soundex_code sa "" = "" ∧
    (name ≠ "" → basic_clean (sa name) = "" → soundex_code sa name = "") ∧
    (name ≠ "" → basic_clean (sa name) ≠ "" →
      (soundex_code sa name).length = 4) := by
  refine ⟨rfl, ?_, ?_⟩
  · intro h1 h2
    simp [soundex_code, h1, h2]
  · intro h1 h2
    have hdata : basic_clean (sa name) ≠ "" →
        (basic_clean (sa name)).data ≠ [] := by
      intro hne hd
      exact hne (by
        have : basic_clean (sa name) = ⟨[]⟩ := by
          cases hsa : basic_clean (sa name)
          simp_all
        exact this)
    have hlen : 1 ≤ (basic_clean (sa name)).data.length := by
      have := hdata h2
      cases hsa : (basic_clean (sa name)).data with
      | nil => exact absurd hsa this
      | cons c cs => simp
    have h1len : (((basic_clean (sa name)).data.take 1).map Char.toUpper).length
        = 1 := by
      rw [List.length_map, List.length_take]
      omega
    simp only [soundex_code, if_neg h1, if_neg h2]
    show (String.mk _).length = 4
    simp only [String.length]
    rw [List.length_take, List.length_append, List.length_append, h1len]
    simp only [List.length_cons, List.length_nil]
    omega

/-- C6 witness: a concrete non-empty input with non-empty cleaned form gets a
4-character code. -/
theorem C6_witness :
    basic_clean (id "abc") ≠ "" ∧ (soundex_code id "abc").length = 4 :=
  ⟨by decide, (C6_theorem id "abc").2.2 (by decide) (by decide)⟩

/-! ## Claim C2: score identities of every `ScoringEngine` algorithm -/

theorem pyRound_hundred : pyRound (100:ℚ) = 100 := by
  have h := pyRound_intCast 100
  push_cast at h
  exact h

theorem pyRound_zero : pyRound (0:ℚ) = 0 := by
  have h := pyRound_intCast 0
  push_cast at h
  exact h

theorem jwScore_self {L : ExtLib} (S : SaneLib L) (a : String) :
    jwScore L a a = 100 := by
  unfold jwScore
  rw [S.jw_self, show ((1:ℚ) * 100) = (100:ℚ) by norm_num]
  exact pyRound_hundred

theorem jwScore_right_empty {L : ExtLib} (S : SaneLib L) {a : String}
    (h : a ≠ "") : jwScore L a "" = 0 := by
  unfold jwScore
  rw [S.jw_right_empty a h, show ((0:ℚ) * 100) = (0:ℚ) by norm_num]
  exact pyRound_zero

/-- C2 counterexample: for the PhoneticMatch algorithm running on its Soundex
fallback (no metaphone library), `score("", "") = 0`, not `100` as the claim
requires: the fallback demands a non-empty shared Soundex code. -/
theorem C2_counterexample :
    double_metaphone_score eqLib "" "" = 0 ∧ (0:ℤ) ≠ 100 := by
  constructor <;> decide

/-- C2 (amended): the identities `score(a,a)=100`, `score("","")=100` and
`score(a,"")=0` (`a` non-empty) hold for the BaseFuzzy variants,
EnhancedFuzzy, Ensemble, Double Metaphone with the metaphone codec present,
and SemanticMatch (for `score(a,"")=0` on its Jaro-Winkler fallback; with the
model present the code applies no empty-string guard, and
`score("","")=100` is the `a=""` instance of the self identity) — but for
the Soundex fallback of PhoneticMatch, `score("","")=0`, `score(a,"")=0`,
and `score(a,a)` is `100` exactly when the Soundex code of `a` is non-empty
and `0` otherwise. -/
theorem C2_theorem (L : ExtLib) (S : SaneLib L) (alg a : String) :
    (base_fuzzy L a a alg = 100 ∧ base_fuzzy L "" "" alg = 100 ∧
      (a ≠ "" → base_fuzzy L a "" alg = 0)) ∧
    (enhanced_fuzzy L a a = 100 ∧ enhanced_fuzzy L "" "" = 100 ∧
      (a ≠ "" → enhanced_fuzzy L a "" = 0)) ∧
    (ensemble_score L a a = 100 ∧ ensemble_score L "" "" = 100 ∧
      (a ≠ "" → ensemble_score L a "" = 0)) ∧
    (semantic_score L a a = 100 ∧
      (L.semantic = none → a ≠ "" → semantic_score L a "" = 0)) ∧
    (L.hasMetaphone = true →
      double_metaphone_score L a a = 100 ∧
      double_metaphone_score L "" "" = 100 ∧
      (a ≠ "" → double_metaphone_score L a "" = 0)) ∧
    (L.hasMetaphone = false →
      double_metaphone_score L "" "" = 0 ∧
      (a ≠ "" → double_metaphone_score L a "" = 0) ∧
      (soundex_code L.sa a ≠ "" → double_metaphone_score L a a = 100) ∧
      (soundex_code L.sa a = "" → double_metaphone_score L a a = 0)) := by
  refine ⟨⟨?_, ?_, ?_⟩, ⟨?_, ?_, ?_⟩, ⟨?_, ?_, ?_⟩, ⟨?_, ?_⟩, ?_, ?_⟩
  · by_cases ha : a = ""
    · simp [base_fuzzy, ha]
    · unfold base_fuzzy
      rw [if_neg (by simp [ha]), if_neg (by simp [ha])]
      by_cases h1 : alg = "Partial Ratio"
      · rw [if_pos h1, S.pr_self]
      · rw [if_neg h1]
        by_cases h2 : alg = "Jaro-Winkler"
        · rw [if_pos h2, jwScore_self S]
          norm_num
        · rw [if_neg h2, S.wr_self]
  · simp [base_fuzzy]
  · intro ha
    unfold base_fuzzy
    rw [if_neg (by simp [ha]), if_pos (by simp)]
  · by_cases ha : a = ""
    · simp [enhanced_fuzzy, ha]
    · unfold enhanced_fuzzy
      rw [if_neg (by simp [ha]), if_neg (by simp [ha]), S.ts_self, S.pr_self,
        show ((100:ℚ) * (3/5) + 100 * (2/5)) = (100:ℚ) by norm_num]
      exact pyRound_hundred
  · simp [enhanced_fuzzy]
  · intro ha
    unfold enhanced_fuzzy
    rw [if_neg (by simp [ha]), if_pos (by simp)]
  · by_cases ha : a = ""
    · simp [ensemble_score, ha]
    · unfold ensemble_score
      rw [if_neg (by simp [ha]), if_neg (by simp [ha]), jwScore_self S,
        S.wr_self, S.ts_self, S.pr_self,
        show (((100:ℤ):ℚ) * (7/20) + (100:ℚ) * (3/10) + (100:ℚ) * (1/5) +
          (100:ℚ) * (3/20)) = (100:ℚ) by norm_num]
      exact pyRound_hundred
  · simp [ensemble_score]
  · intro ha
    unfold ensemble_score
    rw [if_neg (by simp [ha]), if_pos (by simp)]
  · unfold semantic_score
    cases hsem : L.semantic with
    | none => exact jwScore_self S a
    | some sem =>
      have hs := S.sem_self sem a hsem
      simp only [hs]
      rw [show ((1:ℚ) * 100) = (100:ℚ) by norm_num]
      exact pyRound_hundred
  · intro hsem ha
    unfold semantic_score
    rw [hsem]
    exact jwScore_right_empty S ha
  · intro hm
    refine ⟨?_, ?_, ?_⟩
    · unfold double_metaphone_score
      rw [if_neg (by simp [hm])]
      by_cases h1 : (L.dm a).1 = ""
      · have h2 : (L.dm a).2 = "" := S.dm_primary_first a h1
        rw [if_neg (by simp [h1]), if_neg (by simp [h2]),
          if_neg (by simp [h1, h2]), jwScore_self S]
      · rw [if_pos ⟨h1, h1, rfl⟩]
    · unfold double_metaphone_score
      rw [if_neg (by simp [hm])]
      have h0 : L.dm "" = ("", "") := S.dm_empty
      rw [if_neg (by simp [h0]), if_neg (by simp [h0]), if_neg (by simp [h0]),
        jwScore_self S]
    · intro ha
      unfold double_metaphone_score
      rw [if_neg (by simp [hm])]
      have h0 : L.dm "" = ("", "") := S.dm_empty
      rw [if_neg (by simp [h0]), if_neg (by simp [h0]), if_neg (by simp [h0]),
        jwScore_right_empty S ha]
  · intro hm
    refine ⟨?_, ?_, ?_, ?_⟩
    · unfold double_metaphone_score
      rw [if_pos (by simp [hm])]
      have h0 : soundex_code L.sa "" = "" := rfl
      simp [h0]
    · intro ha
      unfold double_metaphone_score
      rw [if_pos (by simp [hm])]
      by_cases hcode : soundex_code L.sa a = ""
      · simp [hcode]
      · rw [if_neg (by
          intro hx
          exact hcode (hx.2.trans rfl))]
    · intro hcode
      unfold double_metaphone_score
      rw [if_pos (by simp [hm]), if_pos ⟨hcode, rfl⟩]
    · intro hcode
      unfold double_metaphone_score
      rw [if_pos (by simp [hm]), if_neg (by simp [hcode])]

/-- C2 witness: the BaseFuzzy self identity evaluated at a concrete library,
algorithm and string. -/
theorem C2_witness : base_fuzzy eqLib "ab" "ab" "x" = 100 :=
  (C2_theorem eqLib saneEqLib "x" "ab").1.1

/-! ## Claim C5: the quick filter -/

theorem take_one_ne_empty {s : String} (h : s ≠ "") :
    (⟨s.data.take 1⟩ : String) ≠ "" := by
  cases s with
  | mk data =>
    cases data with
    | nil => exact absurd rfl h
    | cons c cs =>
      intro hx
      have := congrArg String.data hx
      simp at this

/-- C5 counterexample: a pair whose primary-side last name is empty (ratio
`|0-5|/5 = 1 > 0.5`) *passes* the quick filter, because the source applies
the length-ratio test only when both sides' field is non-empty. -/
theorem C5_counterexample :
    quick_filter (mkNormalizedRow eqLib exCfg "" "ann")
      (mkNormalizedRow eqLib exCfg "smith" "") exCfg = true ∧
    lenDiffFrac (mkNormalizedRow eqLib exCfg "" "ann").lastLen
      (mkNormalizedRow eqLib exCfg "smith" "").lastLen > maxNameLenDiff := by
  constructor
  · decide
  · have h0 : (mkNormalizedRow eqLib exCfg "" "ann").lastLen = 0 := by decide
    have h5 : (mkNormalizedRow eqLib exCfg "smith" "").lastLen = 5 := by decide
    rw [h0, h5, show lenDiffFrac 0 5 = |(0:ℚ) - 5| / ((5:ℕ):ℚ) from rfl]
    norm_num [maxNameLenDiff]

/-- C5 (amended): for rows produced by the normalization precompute, the
quick filter rejects on the last-name (resp. first-name) length-difference
ratio exceeding 0.5 *when both sides have that field non-empty*; and when
both sides have a last name whose first characters differ, a surviving pair
must have phonetic matching enabled with equal non-empty phonetic codes. -/
theorem C5_theorem (L : ExtLib) (cfg : MatchConfig)
    (lastA firstA lastB firstB : String) (n1 n2 : NormalizedRow)
    (h1 : n1 = mkNormalizedRow L cfg lastA firstA)
    (h2 : n2 = mkNormalizedRow L cfg lastB firstB) :
    (n1.lastNorm ≠ "" → n2.lastNorm ≠ "" →
      lenDiffFrac n1.lastLen n2.lastLen > maxNameLenDiff →
      quick_filter n1 n2 cfg = false) ∧
    (n1.firstNorm ≠ "" → n2.firstNorm ≠ "" →
      lenDiffFrac n1.firstLen n2.firstLen > maxNameLenDiff →
      quick_filter n1 n2 cfg = false) ∧
    (n1.lastNorm ≠ "" → n2.lastNorm ≠ "" →
      n1.lastFirstChar ≠ n2.lastFirstChar →
      quick_filter n1 n2 cfg = true →
      cfg.enablePhonetic = true ∧ truthy n1.lastSoundex = true ∧
        truthy n2.lastSoundex = true ∧ n1.lastSoundex = n2.lastSoundex) := by
  refine ⟨?_, ?_, ?_⟩
  · intro hA hB hR
    unfold quick_filter
    split
    · rfl
    · split
      · rfl
      · split
        · rfl
        · split
          · rfl
          · exfalso
            rename_i hcond
            exact hcond ⟨hA, hB, hR⟩
  · intro hA hB hR
    unfold quick_filter
    split
    · rfl
    · split
      · rfl
      · split
        · rfl
        · split
          · rfl
          · split
            · rfl
            · exfalso
              rename_i hcond
              exact hcond ⟨hA, hB, hR⟩
  · intro hA hB hdiff htrue
    have hc1 : n1.lastFirstChar = (⟨n1.lastNorm.data.take 1⟩ : String) := by
      rw [h1]; rfl
    have hc2 : n2.lastFirstChar = (⟨n2.lastNorm.data.take 1⟩ : String) := by
      rw [h2]; rfl
    have hne1 : n1.lastFirstChar ≠ "" := by
      rw [hc1]; exact take_one_ne_empty hA
    have hne2 : n2.lastFirstChar ≠ "" := by
      rw [hc2]; exact take_one_ne_empty hB
    unfold quick_filter at htrue
    split at htrue
    · exact absurd htrue (by simp)
    · split at htrue
      · exact absurd htrue (by simp)
      · split at htrue
        · exact absurd htrue (by simp)
        · split at htrue
          · exact absurd htrue (by simp)
          · split at htrue
            · exact absurd htrue (by simp)
            · split at htrue
              · split at htrue
                · rename_i hph
                  refine ⟨by simpa using hph.1, by simpa using hph.2.1,
                    by simpa using hph.2.2, by simpa using htrue⟩
                · exact absurd htrue (by simp)
              · rename_i hcond
                exact absurd ⟨hA, hB, hne1, hne2, hdiff⟩ hcond

/-- C5 witness: last names "ab" versus "abcdef" (ratio `4/6 > 0.5`) are
rejected by the quick filter. -/
theorem C5_witness :
    quick_filter (mkNormalizedRow eqLib exCfg "ab" "x")
      (mkNormalizedRow eqLib exCfg "abcdef" "x") exCfg = false := by
  refine (C5_theorem eqLib exCfg "ab" "x" "abcdef" "x" _ _ rfl rfl).1
    (by decide) (by decide) ?_
  have ha : (mkNormalizedRow eqLib exCfg "ab" "x").lastLen = 2 := by decide
  have hb : (mkNormalizedRow eqLib exCfg "abcdef" "x").lastLen = 6 := by decide
  rw [ha, hb, show lenDiffFrac 2 6 = |(2:ℚ) - 6| / ((6:ℕ):ℚ) from rfl]
  norm_num [maxNameLenDiff]

/-! ## Claim C1: bounds on the combined score -/

theorem pyRound_range {q : ℚ} (h0 : 0 ≤ q) (h1 : q ≤ 100) :
    0 ≤ pyRound q ∧ pyRound q ≤ 100 :=
  ⟨pyRound_nonneg h0, pyRound_le (by exact_mod_cast h1)⟩

theorem jwScore_range {L : ExtLib} (S : SaneLib L) (a b : String) :
    0 ≤ jwScore L a b ∧ jwScore L a b ≤ 100 := by
  unfold jwScore
  obtain ⟨hl, hr⟩ := S.jw_range a b
  exact pyRound_range (by nlinarith) (by nlinarith)

theorem base_fuzzy_range {L : ExtLib} (S : SaneLib L) (a b alg : String) :
    0 ≤ base_fuzzy L a b alg ∧ base_fuzzy L a b alg ≤ 100 := by
  unfold base_fuzzy
  split
  · norm_num
  · split
    · norm_num
    · split
      · exact S.pr_range a b
      · split
        · obtain ⟨hl, hr⟩ := jwScore_range S a b
          constructor <;> exact_mod_cast (by assumption)
        · exact S.wr_range a b

theorem enhanced_fuzzy_range {L : ExtLib} (S : SaneLib L) (a b : String) :
    0 ≤ enhanced_fuzzy L a b ∧ enhanced_fuzzy L a b ≤ 100 := by
  unfold enhanced_fuzzy
  split
  · norm_num
  · split
    · norm_num
    · obtain ⟨ht0, ht1⟩ := S.ts_range a b
      obtain ⟨hp0, hp1⟩ := S.pr_range a b
      exact pyRound_range (by nlinarith) (by nlinarith)

theorem ensemble_score_range {L : ExtLib} (S : SaneLib L) (a b : String) :
    0 ≤ ensemble_score L a b ∧ ensemble_score L a b ≤ 100 := by
  unfold ensemble_score
  split
  · norm_num
  · split
    · norm_num
    · obtain ⟨hj0, hj1⟩ := jwScore_range S a b
      obtain ⟨hw0, hw1⟩ := S.wr_range a b
      obtain ⟨ht0, ht1⟩ := S.ts_range a b
      obtain ⟨hp0, hp1⟩ := S.pr_range a b
      have hj0q : (0:ℚ) ≤ ((jwScore L a b : ℤ) : ℚ) := by exact_mod_cast hj0
      have hj1q : ((jwScore L a b : ℤ) : ℚ) ≤ 100 := by exact_mod_cast hj1
      exact pyRound_range (by nlinarith) (by nlinarith)

theorem semantic_score_range {L : ExtLib} (S : SaneLib L) (a b : String) :
    0 ≤ semantic_score L a b ∧ semantic_score L a b ≤ 100 := by
  unfold semantic_score
  cases hsem : L.semantic with
  | none => exact jwScore_range S a b
  | some sem =>
    cases hres : sem a b with
    | ok q =>
      obtain ⟨h0, h1⟩ := S.sem_range sem a b q hsem hres
      simp only [hres]
      exact pyRound_range (by nlinarith) (by nlinarith)
    | error e =>
      simp only [hres]
      exact jwScore_range S a b

theorem double_metaphone_score_range {L : ExtLib} (S : SaneLib L)
    (a b : String) :
    0 ≤ double_metaphone_score L a b ∧ double_metaphone_score L a b ≤ 100 := by
  unfold double_metaphone_score
  split
  · simp only []
    split <;> norm_num
  · simp only []
    split
    · norm_num
    · split
      · norm_num
      · split
        · norm_num
        · exact jwScore_range S a b

theorem fuzzy_score_range {L : ExtLib} (S : SaneLib L) (cfg : MatchConfig)
    (a b : String) :
    0 ≤ fuzzy_score L cfg a b ∧ fuzzy_score L cfg a b ≤ 100 := by
  unfold fuzzy_score
  split
  · obtain ⟨h0, h1⟩ := enhanced_fuzzy_range S a b
    constructor <;> exact_mod_cast (by assumption)
  · split
    · obtain ⟨h0, h1⟩ := ensemble_score_range S a b
      constructor <;> exact_mod_cast (by assumption)
    · split
      · obtain ⟨h0, h1⟩ := semantic_score_range S a b
        constructor <;> exact_mod_cast (by assumption)
      · split
        · obtain ⟨h0, h1⟩ := double_metaphone_score_range S a b
          constructor <;> exact_mod_cast (by assumption)
        · split
          · obtain ⟨h0, h1⟩ := jwScore_range S a b
            constructor <;> exact_mod_cast (by assumption)
          · exact base_fuzzy_range S a b cfg.algorithm

/-- The boost `min(100, x + k)` keeps a non-negative score within `[0,100]`. -/
theorem boost_range {x k : ℚ} (h0 : 0 ≤ x) (hk : 0 ≤ k) :
    0 ≤ min 100 (x + k) ∧ min 100 (x + k) ≤ 100 :=
  ⟨le_min (by norm_num) (by linarith), min_le_left _ _⟩

theorem nameBoost_range {dateDiff tol : ℤ} {x : ℚ} (h0 : 0 ≤ x) (h1 : x ≤ 100) :
    0 ≤ nameBoost dateDiff tol x ∧ nameBoost dateDiff tol x ≤ 100 := by
  unfold nameBoost
  split
  · exact boost_range h0 (by norm_num)
  · split
    · exact boost_range h0 (by norm_num)
    · exact ⟨h0, h1⟩

theorem adaptiveWeights_spec (lastLens firstLens : ℕ) :
    0 ≤ (adaptiveWeights lastLens firstLens).1 ∧
    0 ≤ (adaptiveWeights lastLens firstLens).2 ∧
    (adaptiveWeights lastLens firstLens).1 +
      (adaptiveWeights lastLens firstLens).2 = 1 := by
  unfold adaptiveWeights
  split
  · split
    · set lp := ((lastLens : ℚ) / ((lastLens + firstLens : ℕ) : ℚ)) with hlp
      have hnn : 0 ≤ lp := div_nonneg (by positivity) (by positivity)
      have h1 : 0 ≤ min (7/10 : ℚ) lp := le_min (by norm_num) hnn
      have h2 : min (7/10 : ℚ) lp ≤ 7/10 := min_le_left _ _
      exact ⟨h1, by simp only []; linarith, by simp only []; ring⟩
    · split
      · set fp := ((firstLens : ℚ) / ((lastLens + firstLens : ℕ) : ℚ)) with hfp
        have hnn : 0 ≤ fp := div_nonneg (by positivity) (by positivity)
        have h1 : 0 ≤ min (7/10 : ℚ) fp := le_min (by norm_num) hnn
        have h2 : min (7/10 : ℚ) fp ≤ 7/10 := min_le_left _ _
        exact ⟨by simp only []; linarith, h1, by simp only []; ring⟩
      · norm_num
  · norm_num

theorem combineScores_range {cfg : MatchConfig} {t1n t2n : NormalizedRow}
    {lastScore firstScore : ℚ} (hl0 : 0 ≤ lastScore) (hl1 : lastScore ≤ 100)
    (hf0 : 0 ≤ firstScore) (hf1 : firstScore ≤ 100) :
    0 ≤ combineScores cfg t1n t2n lastScore firstScore ∧
      combineScores cfg t1n t2n lastScore firstScore ≤ 100 := by
  unfold combineScores
  split
  · exact ⟨hl0, hl1⟩
  · obtain ⟨hw1, hw2, hsum⟩ := adaptiveWeights_spec
      (t1n.lastLen + t2n.lastLen) (t1n.firstLen + t2n.firstLen)
    set w1 := (adaptiveWeights (t1n.lastLen + t2n.lastLen)
      (t1n.firstLen + t2n.firstLen)).1
    set w2 := (adaptiveWeights (t1n.lastLen + t2n.lastLen)
      (t1n.firstLen + t2n.firstLen)).2
    have hlo : 0 ≤ lastScore * w1 + firstScore * w2 := by
      have := mul_nonneg hl0 hw1
      have := mul_nonneg hf0 hw2
      linarith
    have hhi : lastScore * w1 + firstScore * w2 ≤ 100 := by
      have e1 : lastScore * w1 ≤ 100 * w1 := mul_le_mul_of_nonneg_right hl1 hw1
      have e2 : firstScore * w2 ≤ 100 * w2 := mul_le_mul_of_nonneg_right hf1 hw2
      nlinarith
    obtain ⟨h0, h1⟩ := pyRound_range hlo hhi
    constructor <;> exact_mod_cast (by assumption)

theorem dateBonus_range {cfg : MatchConfig} {dateDiff : ℤ} {c : ℚ}
    (h0 : 0 ≤ c) (h1 : c ≤ 100) :
    0 ≤ dateBonus cfg dateDiff c ∧ dateBonus cfg dateDiff c ≤ 100 := by
  unfold dateBonus
  split
  · split
    · exact boost_range h0 (by norm_num)
    · split
      · exact boost_range h0 (by norm_num)
      · exact ⟨h0, h1⟩
  · exact ⟨h0, h1⟩

theorem phoneticRescue_range {cfg : MatchConfig} {t1n t2n : NormalizedRow}
    {c : ℚ} (h0 : 0 ≤ c) (h1 : c ≤ 100) :
    0 ≤ phoneticRescue cfg t1n t2n c ∧ phoneticRescue cfg t1n t2n c ≤ 100 := by
  unfold phoneticRescue
  split
  · exact boost_range h0 (by norm_num)
  · exact ⟨h0, h1⟩

theorem detailed_scoring_range {L : ExtLib} (S : SaneLib L) (cfg : MatchConfig)
    (t1n t2n : NormalizedRow) (dateDiff : ℤ) :
    0 ≤ (detailed_scoring L cfg t1n t2n dateDiff).2.2 ∧
      (detailed_scoring L cfg t1n t2n dateDiff).2.2 ≤ 100 := by
  obtain ⟨hl0, hl1⟩ := fuzzy_score_range S cfg t1n.lastNorm t2n.lastNorm
  have hf : 0 ≤ (if t1n.firstNorm ≠ "" ∨ t2n.firstNorm ≠ "" then
        fuzzy_score L cfg t1n.firstNorm t2n.firstNorm else 0) ∧
      (if t1n.firstNorm ≠ "" ∨ t2n.firstNorm ≠ "" then
        fuzzy_score L cfg t1n.firstNorm t2n.firstNorm else 0) ≤ 100 := by
    split
    · exact fuzzy_score_range S cfg t1n.firstNorm t2n.firstNorm
    · norm_num
  obtain ⟨hA0, hA1⟩ := @nameBoost_range dateDiff cfg.dateToleranceDays _ hl0 hl1
  obtain ⟨hB0, hB1⟩ := @nameBoost_range dateDiff cfg.dateToleranceDays _ hf.1 hf.2
  obtain ⟨hC0, hC1⟩ := @combineScores_range cfg t1n t2n _ _ hA0 hA1 hB0 hB1
  obtain ⟨hD0, hD1⟩ := @dateBonus_range cfg dateDiff _ hC0 hC1
  exact phoneticRescue_range hD0 hD1

/-! ### Membership lemmas for the selection and emission steps -/

theorem betterMatch_cases (o n : Cand) :
    betterMatch o n = o ∨ betterMatch o n = n := by
  unfold betterMatch
  split
  · exact Or.inr rfl
  · split
    · exact Or.inl rfl
    · split
      · exact Or.inr rfl
      · exact Or.inl rfl

theorem dedupCandsAux_forall (P : Cand → Prop) :
    ∀ (l acc : List Cand), (∀ c ∈ acc, P c) → (∀ c ∈ l, P c) →
      ∀ c ∈ dedupCandsAux acc l, P c := by
  intro l
  induction l with
  | nil =>
    intro acc hacc _ c hc
    exact hacc c hc
  | cons x rest ih =>
    intro acc hacc hl c hc
    have hx : P x := hl x (List.mem_cons_self x rest)
    have hrest : ∀ c ∈ rest, P c := fun c hc => hl c (List.mem_cons_of_mem x hc)
    unfold dedupCandsAux at hc
    split at hc
    · refine ih _ ?_ hrest c hc
      intro o ho
      obtain ⟨o0, ho0, rfl⟩ := List.mem_map.mp ho
      split
      · rcases betterMatch_cases o0 x with h | h <;> rw [h]
        · exact hacc o0 ho0
        · exact hx
      · exact hacc o0 ho0
    · refine ih _ ?_ hrest c hc
      intro o ho
      rcases List.mem_append.mp ho with h | h
      · exact hacc o h
      · rw [List.mem_singleton.mp h]
        exact hx

theorem mem_dedupCands {c : Cand} {l : List Cand} (h : c ∈ dedupCands l) :
    c ∈ l :=
  dedupCandsAux_forall (· ∈ l) l [] (by simp) (fun _ hc => hc) c h

theorem mem_insertCand {x c : Cand} {l : List Cand}
    (h : x ∈ insertCand c l) : x = c ∨ x ∈ l := by
  induction l with
  | nil =>
    simp [insertCand] at h
    exact Or.inl h
  | cons d rest ih =>
    unfold insertCand at h
    split at h
    · rcases List.mem_cons.mp h with h | h
      · exact Or.inr (List.mem_cons.mpr (Or.inl h))
      · rcases ih h with h | h
        · exact Or.inl h
        · exact Or.inr (List.mem_cons.mpr (Or.inr h))
    · rcases List.mem_cons.mp h with h | h
      · exact Or.inl h
      · exact Or.inr h

theorem mem_sortCands {x : Cand} {l : List Cand} (h : x ∈ sortCands l) :
    x ∈ l := by
  induction l with
  | nil => simp [sortCands] at h
  | cons c rest ih =>
    unfold sortCands at h
    rcases mem_insertCand h with h | h
    · exact h ▸ List.mem_cons_self c rest
    · exact List.mem_cons_of_mem c (ih h)

theorem mem_selectRows {cfg : MatchConfig} {c : Cand} {l : List Cand}
    (h : c ∈ selectRows cfg l) : c ∈ l := by
  unfold selectRows at h
  split at h
  · exact mem_dedupCands h
  · split at h
    · simp at h
    · rename_i c0 _ heq
      rw [List.mem_singleton.mp h]
      have : c0 ∈ sortCands l := by
        rw [heq]
        exact List.mem_cons_self c0 _
      exact mem_sortCands this

theorem mem_emitGlobal {gs : Option (List (ℕ × ℕ))} {i1 : ℕ}
    {l : List Cand} {row : ResultRow}
    (h : row ∈ (emitGlobal gs i1 l).2) : ∃ c ∈ l, row = mkMatchRow i1 c := by
  induction l generalizing gs with
  | nil =>
    cases gs <;> simp [emitGlobal] at h
  | cons c rest ih =>
    cases gs with
    | none =>
      rw [show emitGlobal none i1 (c :: rest) =
          ((emitGlobal none i1 rest).1,
           mkMatchRow i1 c :: (emitGlobal none i1 rest).2) from rfl] at h
      rcases List.mem_cons.mp h with h | h
      · exact ⟨c, List.mem_cons_self c rest, h⟩
      · obtain ⟨c0, hc0, hrw⟩ := ih h
        exact ⟨c0, List.mem_cons_of_mem c hc0, hrw⟩
    | some seen =>
      rw [show emitGlobal (some seen) i1 (c :: rest) =
          (if (i1, c.i2) ∈ seen then emitGlobal (some seen) i1 rest
           else
            ((emitGlobal (some ((i1, c.i2) :: seen)) i1 rest).1,
             mkMatchRow i1 c ::
               (emitGlobal (some ((i1, c.i2) :: seen)) i1 rest).2)) from rfl] at h
      split at h
      · obtain ⟨c0, hc0, hrw⟩ := ih h
        exact ⟨c0, List.mem_cons_of_mem c hc0, hrw⟩
      · rcases List.mem_cons.mp h with h | h
        · exact ⟨c, List.mem_cons_self c rest, h⟩
        · obtain ⟨c0, hc0, hrw⟩ := ih h
          exact ⟨c0, List.mem_cons_of_mem c hc0, hrw⟩

theorem scoreCandidate_eq_some {L : ExtLib} {cfg : MatchConfig}
    {t1n : NormalizedRow} {d1 : ℤ} {p : ℕ × T2Row} {c : Cand}
    (h : scoreCandidate L cfg t1n d1 p = some c) :
    ∃ d2 conf, p.2.date = some d2 ∧
      c = ⟨p.1,
        (detailed_scoring L cfg t1n (mkNormalizedRow L cfg p.2.last p.2.first)
          |d1 - d2|).1,
        (detailed_scoring L cfg t1n (mkNormalizedRow L cfg p.2.last p.2.first)
          |d1 - d2|).2.1,
        (detailed_scoring L cfg t1n (mkNormalizedRow L cfg p.2.last p.2.first)
          |d1 - d2|).2.2,
        |d1 - d2|, conf⟩ := by
  unfold scoreCandidate at h
  split at h
  · exact absurd h (by simp)
  · rename_i d2 hd2
    split at h
    · exact absurd h (by simp)
    · split at h
      · exact absurd h (by simp)
      · rename_i conf hconf
        exact ⟨d2, conf, hd2, (Option.some.injEq _ _ ▸ h).symm⟩

theorem rowResults_combined_range {L : ExtLib} (S : SaneLib L)
    (cfg : MatchConfig) (t2e : List (ℕ × T2Row))
    (gs : Option (List (ℕ × ℕ))) (i1 : ℕ) (r1 : T1Row) :
    ∀ row ∈ (rowResults L cfg t2e gs i1 r1).2, ∀ q,
      row.combined = some q → 0 ≤ q ∧ q ≤ 100 := by
  intro row hrow q hq
  unfold rowResults at hrow
  split at hrow
  · simp only [] at hrow
    split at hrow
    · rw [List.mem_singleton.mp hrow] at hq
      exact absurd hq (by simp [noMatchRow])
    · simp at hrow
  · rename_i od1 d1v hd1v
    split at hrow
    · simp only [] at hrow
      split at hrow
      · rw [List.mem_singleton.mp hrow] at hq
        exact absurd hq (by simp [noMatchRow])
      · simp at hrow
    · simp only [] at hrow
      rcases List.mem_append.mp hrow with hmem | hmem
      · split at hmem
        · rw [List.mem_singleton.mp hmem] at hq
          exact absurd hq (by simp [noMatchRow])
        · simp at hmem
      · obtain ⟨c, hc, rfl⟩ := mem_emitGlobal hmem
        have hcm : c ∈ rowMatchingList L cfg t2e r1 d1v := mem_selectRows hc
        unfold rowMatchingList at hcm
        obtain ⟨p, _, hsc⟩ := List.mem_filterMap.mp hcm
        obtain ⟨d2, conf, _, rfl⟩ := scoreCandidate_eq_some hsc
        have hb := detailed_scoring_range S cfg
          (mkNormalizedRow L cfg r1.last r1.first)
          (mkNormalizedRow L cfg p.2.last p.2.first) |d1v - d2|
        simp only [mkMatchRow, Option.some.injEq] at hq
        rw [← hq]
        exact hb

theorem matchLoop_combined_range {L : ExtLib} (S : SaneLib L)
    (cfg : MatchConfig) (t2e : List (ℕ × T2Row)) :
    ∀ (ps : List (ℕ × T1Row)) (gs : Option (List (ℕ × ℕ))) row,
      row ∈ matchLoop L cfg t2e ps gs → ∀ q,
      row.combined = some q → 0 ≤ q ∧ q ≤ 100 := by
  intro ps
  induction ps with
  | nil =>
    intro gs row hrow
    simp [matchLoop] at hrow
  | cons p rest ih =>
    intro gs row hrow q hq
    unfold matchLoop at hrow
    rcases List.mem_append.mp hrow with h | h
    · exact rowResults_combined_range S cfg t2e gs p.1 p.2 row h q hq
    · exact ih _ row h q hq

/-! ### The Record Linkage side of the combined-score invariant -/

theorem mem_rlEmit {sim : String → String → ℚ} {showAll : Bool}
    {l : List ((ℕ × RLRow) × (ℕ × RLRow))} {seen : List (ℕ × ℕ)}
    {row : RLResult} (h : row ∈ rlEmit sim showAll l seen) :
    ∃ pq ∈ l, row = rlMkRow sim pq := by
  induction l generalizing seen with
  | nil => simp [rlEmit] at h
  | cons pq rest ih =>
    unfold rlEmit at h
    split at h
    · obtain ⟨pq0, hpq0, hrw⟩ := ih h
      exact ⟨pq0, List.mem_cons_of_mem pq hpq0, hrw⟩
    · rcases List.mem_cons.mp h with h | h
      · exact ⟨pq, List.mem_cons_self pq rest, h⟩
      · obtain ⟨pq0, hpq0, hrw⟩ := ih h
        exact ⟨pq0, List.mem_cons_of_mem pq hpq0, hrw⟩

theorem rlCombined_values (sim : String → String → ℚ) (a b : RLRow) :
    ⌊((rlFeatures sim a b).1 + (rlFeatures sim a b).2.1 +
      (rlFeatures sim a b).2.2) * 100⌋ = 0 ∨
    ⌊((rlFeatures sim a b).1 + (rlFeatures sim a b).2.1 +
      (rlFeatures sim a b).2.2) * 100⌋ = 100 ∨
    ⌊((rlFeatures sim a b).1 + (rlFeatures sim a b).2.1 +
      (rlFeatures sim a b).2.2) * 100⌋ = 200 ∨
    ⌊((rlFeatures sim a b).1 + (rlFeatures sim a b).2.1 +
      (rlFeatures sim a b).2.2) * 100⌋ = 300 := by
  unfold rlFeatures rlFeature
  by_cases h1 : sim a.last b.last ≥ 7/10 <;>
    by_cases h2 : sim a.first b.first ≥ 7/10 <;>
    by_cases h3 : a.date = b.date <;>
    simp only [h1, h2, h3, if_true, if_false]
  · refine Or.inr (Or.inr (Or.inr ?_))
    rw [show ((1:ℚ) + 1 + 1) * 100 = ((300:ℤ):ℚ) by norm_num, Int.floor_intCast]
  · refine Or.inr (Or.inr (Or.inl ?_))
    rw [show ((1:ℚ) + 1 + 0) * 100 = ((200:ℤ):ℚ) by norm_num, Int.floor_intCast]
  · refine Or.inr (Or.inr (Or.inl ?_))
    rw [show ((1:ℚ) + 0 + 1) * 100 = ((200:ℤ):ℚ) by norm_num, Int.floor_intCast]
  · refine Or.inr (Or.inl ?_)
    rw [show ((1:ℚ) + 0 + 0) * 100 = ((100:ℤ):ℚ) by norm_num, Int.floor_intCast]
  · refine Or.inr (Or.inr (Or.inl ?_))
    rw [show ((0:ℚ) + 1 + 1) * 100 = ((200:ℤ):ℚ) by norm_num, Int.floor_intCast]
  · refine Or.inr (Or.inl ?_)
    rw [show ((0:ℚ) + 1 + 0) * 100 = ((100:ℤ):ℚ) by norm_num, Int.floor_intCast]
  · refine Or.inr (Or.inl ?_)
    rw [show ((0:ℚ) + 0 + 1) * 100 = ((100:ℤ):ℚ) by norm_num, Int.floor_intCast]
  · refine Or.inl ?_
    rw [show ((0:ℚ) + 0 + 0) * 100 = ((0:ℤ):ℚ) by norm_num, Int.floor_intCast]

theorem rl_combined_range {hasRL : Bool}
    {simE : Except String (String → String → ℚ)} {t1 t2 : List RLRow}
    {thr : ℚ} {showAll : Bool} :
    ∀ row ∈ match_with_recordlinkage hasRL simE t1 t2 thr showAll, ∀ c,
      row.combined = some c → c = 0 ∨ c = 100 ∨ c = 200 ∨ c = 300 := by
  intro row hrow c hc
  unfold match_with_recordlinkage at hrow
  split at hrow
  · simp at hrow
  · split at hrow
    · simp at hrow
    · rename_i sim
      split at hrow
      · simp at hrow
      · split at hrow
        · simp at hrow
        · rcases List.mem_append.mp hrow with hmem | hmem
          · obtain ⟨pq, _, rfl⟩ := mem_rlEmit hmem
            have hv := rlCombined_values sim pq.1.2 pq.2.2
            simp only [rlMkRow, Option.some.injEq] at hc
            rw [← hc]
            exact hv
          · split at hmem
            · obtain ⟨p, _, rfl⟩ := List.mem_map.mp
                (by unfold rlUnmatchedRows at hmem; exact hmem)
              exact absurd hc (by simp [rlNoMatchRow])
            · simp at hmem

/-! ### Claim C1 -/

/-- A fully evaluated Record Linkage run: one primary and one secondary row
agreeing on last name, first name and date, threshold `0.85`.  All three
features fire, so the emitted Combined_Score is `300`. -/
theorem rlRun_eval :
    match_with_recordlinkage true (Except.ok eqSim) [rlRowEx] [rlRowEx]
      (17/20) false = [rlResultEx] := by
  have hf : rlFeatures eqSim rlRowEx rlRowEx = (1, 1, 1) := by
    unfold rlFeatures rlFeature eqSim rlRowEx
    norm_num
  have hsum : rlFeatureSum eqSim rlRowEx rlRowEx = 3 := by
    unfold rlFeatureSum
    rw [hf]
    norm_num
  have hhits : rlHits eqSim [rlRowEx] [rlRowEx] (17/20) =
      [((0, rlRowEx), (0, rlRowEx))] := by
    unfold rlHits
    rw [show rlPairs (rlClean [rlRowEx]) (rlClean [rlRowEx]) =
      [((0, rlRowEx), (0, rlRowEx))] from rfl]
    rw [List.filter_cons]
    simp only [hsum]
    rw [if_pos (by exact decide_eq_true (by norm_num))]
    rfl
  have hrow : rlMkRow eqSim ((0, rlRowEx), (0, rlRowEx)) = rlResultEx := by
    unfold rlMkRow
    rw [hf]
    simp only []
    rw [show ((1:ℚ) * 100) = ((100:ℤ):ℚ) by norm_num,
      show ((1:ℚ) + 1 + 1) * 100 = ((300:ℤ):ℚ) by norm_num,
      Int.floor_intCast, Int.floor_intCast]
    rfl
  unfold match_with_recordlinkage
  rw [if_neg (by simp)]
  simp only []
  rw [if_neg (by decide), if_neg (by decide), hhits]
  rw [show rlEmit eqSim false [((0, rlRowEx), (0, rlRowEx))] [] =
    [rlMkRow eqSim ((0, rlRowEx), (0, rlRowEx))] from rfl]
  rw [hrow]
  rfl

/-- C1 counterexample: the run of `rlRun_eval` emits a matched row whose
Combined_Score is 300, outside `[0,100]` — the Record Linkage path scales
the sum of up to three binary features by 100. -/
theorem C1_counterexample :
    (match_with_recordlinkage true (Except.ok eqSim) [rlRowEx] [rlRowEx]
      (17/20) false).map (fun r => r.combined) = [some 300] ∧
    ¬ ((300:ℤ) ≤ 100) := by
  rw [rlRun_eval]
  exact ⟨rfl, by norm_num⟩

/-- C1 (amended): every emitted matched row of the standard pipeline has
Combined_Score in `[0,100]` (date bonuses and phonetic rescue are capped at
100 and the weighted average of `[0,100]` scores stays in range); on the
ProbabilisticLinkageEngine path the combined score is 100 times the number
of agreeing features, i.e. one of 0, 100, 200, 300 — bounded by 300, not
100. -/
theorem C1_theorem (L : ExtLib) (S : SaneLib L) :
    (∀ (cfg : MatchConfig) (t1 : List T1Row) (t2 : List T2Row),
      ∀ row ∈ match_tables_std L cfg t1 t2, ∀ q, row.combined = some q →
        0 ≤ q ∧ q ≤ 100) ∧
    (∀ (hasRL : Bool) (simE : Except String (String → String → ℚ))
        (rt1 rt2 : List RLRow) (thr : ℚ) (showAll : Bool),
      ∀ row ∈ match_with_recordlinkage hasRL simE rt1 rt2 thr showAll,
        ∀ c, row.combined = some c → c = 0 ∨ c = 100 ∨ c = 200 ∨ c = 300) := by
  constructor
  · intro cfg t1 t2 row hrow q hq
    unfold match_tables_std at hrow
    split at hrow
    · simp at hrow
    · exact matchLoop_combined_range S cfg (enumFrom 0 t2) (enumFrom 0 t1) _
        row hrow q hq
  · intro hasRL simE rt1 rt2 thr showAll row hrow c hc
    exact rl_combined_range row hrow c hc

/-- C1 witness: the theorem applied to the concrete Record Linkage run of
`rlRun_eval`, whose emitted combined score is 300. -/
theorem C1_witness :
    (300:ℤ) = 0 ∨ (300:ℤ) = 100 ∨ (300:ℤ) = 200 ∨ (300:ℤ) = 300 := by
  have hmem : rlResultEx ∈ match_with_recordlinkage true (Except.ok eqSim)
      [rlRowEx] [rlRowEx] (17/20) false := by
    rw [rlRun_eval]
    exact List.mem_singleton.mpr rfl
  exact (C1_theorem eqLib saneEqLib).2 true (Except.ok eqSim) [rlRowEx]
    [rlRowEx] (17/20) false rlResultEx hmem 300 rfl

/-! ## Claim C10: empty input tables -/

/-- C10 (confirmed): if either input table is empty, the standard pipeline
returns an empty result table — in particular, with show-all enabled, a
non-empty primary table against an empty secondary table produces no
"No Match" placeholder rows. -/
theorem C10_theorem (L : ExtLib) (cfg : MatchConfig) (t1 : List T1Row)
    (t2 : List T2Row) (h : t1 = [] ∨ t2 = []) :
    match_tables_std L cfg t1 t2 = [] := by
  unfold match_tables_std
  rcases h with h | h <;> rw [h] <;> simp

/-- C10 witness: a one-row primary table with show-all enabled against an
empty secondary table yields no rows at all. -/
theorem C10_witness :
    match_tables_std eqLib c10Cfg [⟨"smith", "ann", some 0⟩] [] = [] :=
  C10_theorem eqLib c10Cfg [⟨"smith", "ann", some 0⟩] [] (Or.inr rfl)

/-! ## Claim C8: the probabilistic engine never raises and skips
unparseable dates -/

theorem mem_rlClean {t : List RLRow} {p : ℕ × RLRow} (h : p ∈ rlClean t) :
    p.2.date.isSome := by
  unfold rlClean at h
  exact (List.mem_filter.mp h).2

theorem mem_rlPairs {t1c t2c : List (ℕ × RLRow)}
    {pq : (ℕ × RLRow) × (ℕ × RLRow)} (h : pq ∈ rlPairs t1c t2c) :
    pq.1 ∈ t1c ∧ pq.2 ∈ t2c := by
  unfold rlPairs at h
  obtain ⟨p, hp, hmem⟩ := List.mem_flatMap.mp h
  obtain ⟨q, hq, rfl⟩ := List.mem_map.mp hmem
  exact ⟨hp, (List.mem_filter.mp hq).1⟩

/-- C8 (confirmed): the `match_with_recordlinkage` strategy is a total
function of its inputs in which every internal-failure path (the
recordlinkage library missing, or any failure of the library machinery,
modelled as the `Except.error` case caught at the strategy boundary) yields
the empty result table instead of an exception; and every *matched* result
row is built from a primary and a secondary row whose dates parsed
(unparseable-date rows are excluded from matching entirely). -/
theorem C8_theorem (hasRL : Bool)
    (simE : Except String (String → String → ℚ)) (t1 t2 : List RLRow)
    (thr : ℚ) (showAll : Bool) :
    (hasRL = false →
      match_with_recordlinkage hasRL simE t1 t2 thr showAll = []) ∧
    (∀ e, simE = Except.error e →
      match_with_recordlinkage hasRL simE t1 t2 thr showAll = []) ∧
    (∀ row ∈ match_with_recordlinkage hasRL simE t1 t2 thr showAll,
      ∀ j r2row, row.r2 = some (j, r2row) →
        row.r1.date.isSome ∧ r2row.date.isSome) := by
  refine ⟨?_, ?_, ?_⟩
  · intro h
    unfold match_with_recordlinkage
    rw [h]
    simp
  · intro e h
    unfold match_with_recordlinkage
    rw [h]
    split <;> simp
  · intro row hrow j r2row hr2
    unfold match_with_recordlinkage at hrow
    split at hrow
    · simp at hrow
    · split at hrow
      · simp at hrow
      · rename_i sim
        split at hrow
        · simp at hrow
        · split at hrow
          · simp at hrow
          · rcases List.mem_append.mp hrow with hmem | hmem
            · obtain ⟨pq, hpq, rfl⟩ := mem_rlEmit hmem
              unfold rlHits at hpq
              have hpq2 := (List.mem_filter.mp hpq).1
              obtain ⟨h1c, h2c⟩ := mem_rlPairs hpq2
              simp only [rlMkRow, Option.some.injEq] at hr2
              constructor
              · exact mem_rlClean h1c
              · rw [show r2row = pq.2.2 from congrArg Prod.snd hr2.symm]
                exact mem_rlClean h2c
            · split at hmem
              · obtain ⟨p, _, rfl⟩ := List.mem_map.mp
                  (by unfold rlUnmatchedRows at hmem; exact hmem)
                exact absurd hr2 (by simp [rlNoMatchRow])
              · simp at hmem

/-- C8 witness: with the library machinery failing, the strategy returns the
empty table for a non-trivial input. -/
theorem C8_witness :
    match_with_recordlinkage true (Except.error "boom") [rlRowEx] [rlRowEx]
      (17/20) true = [] :=
  (C8_theorem true (Except.error "boom") [rlRowEx] [rlRowEx]
    (17/20) true).2.1 "boom" rfl

/-! ## Claim C7: single-best mode -/

theorem emitGlobal_len (gs : Option (List (ℕ × ℕ))) (i1 : ℕ) (l : List Cand) :
    (emitGlobal gs i1 l).2.length ≤ l.length := by
  induction l generalizing gs with
  | nil => cases gs <;> simp [emitGlobal]
  | cons c rest ih =>
    cases gs with
    | none =>
      rw [show emitGlobal none i1 (c :: rest) =
          ((emitGlobal none i1 rest).1,
           mkMatchRow i1 c :: (emitGlobal none i1 rest).2) from rfl]
      simpa using ih none
    | some seen =>
      rw [show emitGlobal (some seen) i1 (c :: rest) =
          (if (i1, c.i2) ∈ seen then emitGlobal (some seen) i1 rest
           else
            ((emitGlobal (some ((i1, c.i2) :: seen)) i1 rest).1,
             mkMatchRow i1 c ::
               (emitGlobal (some ((i1, c.i2) :: seen)) i1 rest).2)) from rfl]
      split
      · exact le_trans (ih (some seen)) (by simp)
      · simpa using ih (some ((i1, c.i2) :: seen))

theorem rowResults_i1 {L : ExtLib} {cfg : MatchConfig}
    {t2e : List (ℕ × T2Row)} {gs : Option (List (ℕ × ℕ))} {i1 : ℕ}
    {r1 : T1Row} : ∀ row ∈ (rowResults L cfg t2e gs i1 r1).2, row.i1 = i1 := by
  intro row hrow
  unfold rowResults at hrow
  split at hrow
  · simp only [] at hrow
    split at hrow
    · rw [List.mem_singleton.mp hrow]
      rfl
    · simp at hrow
  · split at hrow
    · simp only [] at hrow
      split at hrow
      · rw [List.mem_singleton.mp hrow]
        rfl
      · simp at hrow
    · simp only [] at hrow
      rcases List.mem_append.mp hrow with hmem | hmem
      · split at hmem
        · rw [List.mem_singleton.mp hmem]
          rfl
        · simp at hmem
      · obtain ⟨c, _, rfl⟩ := mem_emitGlobal hmem
        rfl

theorem rowResults_single_len {L : ExtLib} {cfg : MatchConfig}
    (h : cfg.showAllMatches = false) (t2e : List (ℕ × T2Row))
    (gs : Option (List (ℕ × ℕ))) (i1 : ℕ) (r1 : T1Row) :
    (rowResults L cfg t2e gs i1 r1).2.length ≤ 1 := by
  unfold rowResults
  split
  · simp [h]
  · split
    · simp [h]
    · rename_i od1 d1 hd1 hne
      simp only []
      rw [List.length_append]
      have h1 : (if cfg.showAllMatches = true ∧
          (rowMatchingList L cfg t2e r1 d1).isEmpty = true then
            [noMatchRow i1] else [] : List ResultRow).length = 0 := by
        rw [if_neg]
        · rfl
        · rw [h]
          simp
      rw [h1]
      have h2 : (selectRows cfg (rowMatchingList L cfg t2e r1 d1)).length ≤ 1 := by
        unfold selectRows
        rw [if_neg (by rw [h]; simp)]
        split <;> simp
      have h3 := emitGlobal_len gs i1
        (selectRows cfg (rowMatchingList L cfg t2e r1 d1))
      omega

theorem matchLoop_i1_ge {L : ExtLib} {cfg : MatchConfig}
    {t2e : List (ℕ × T2Row)} :
    ∀ (l : List T1Row) (i : ℕ) (gs : Option (List (ℕ × ℕ))) row,
      row ∈ matchLoop L cfg t2e (enumFrom i l) gs → i ≤ row.i1 := by
  intro l
  induction l with
  | nil =>
    intro i gs row hrow
    simp [enumFrom, matchLoop] at hrow
  | cons r rest ih =>
    intro i gs row hrow
    rw [show enumFrom i (r :: rest) = (i, r) :: enumFrom (i + 1) rest from rfl]
      at hrow
    unfold matchLoop at hrow
    rcases List.mem_append.mp hrow with hmem | hmem
    · rw [rowResults_i1 row hmem]
    · exact le_trans (by omega) (ih (i + 1) _ row hmem)

theorem filter_len_zero {α : Type} {p : α → Bool} {l : List α}
    (h : ∀ x ∈ l, p x = false) : (l.filter p).length = 0 := by
  rw [List.filter_eq_nil_iff.mpr (by intro a ha; simp [h a ha])]
  rfl

theorem matchLoop_count {L : ExtLib} {cfg : MatchConfig}
    (h : cfg.showAllMatches = false) (t2e : List (ℕ × T2Row)) :
    ∀ (l : List T1Row) (i : ℕ) (gs : Option (List (ℕ × ℕ))) (k : ℕ),
      ((matchLoop L cfg t2e (enumFrom i l) gs).filter
        (fun r => r.i1 = k)).length ≤ 1 := by
  intro l
  induction l with
  | nil =>
    intro i gs k
    simp [enumFrom, matchLoop]
  | cons r rest ih =>
    intro i gs k
    rw [show enumFrom i (r :: rest) = (i, r) :: enumFrom (i + 1) rest from rfl]
    unfold matchLoop
    simp only []
    rw [List.filter_append, List.length_append]
    by_cases hk : k = i
    · have htail : ((matchLoop L cfg t2e (enumFrom (i + 1) rest)
          (rowResults L cfg t2e gs i r).1).filter
            (fun row => row.i1 = k)).length = 0 := by
        apply filter_len_zero
        intro row hrow
        have := matchLoop_i1_ge rest (i + 1) _ row hrow
        simp only [decide_eq_false_iff_not]
        omega
      have hhead : (((rowResults L cfg t2e gs i r).2).filter
          (fun row => row.i1 = k)).length ≤ 1 :=
        le_trans (List.length_filter_le _ _) (rowResults_single_len h t2e gs i r)
      omega
    · have hhead : (((rowResults L cfg t2e gs i r).2).filter
          (fun row => row.i1 = k)).length = 0 := by
        apply filter_len_zero
        intro row hrow
        have := rowResults_i1 row hrow
        simp only [decide_eq_false_iff_not]
        omega
      have htail := ih (i + 1) ((rowResults L cfg t2e gs i r).1) k
      omega

theorem matchLoop_matched {L : ExtLib} {cfg : MatchConfig}
    (h : cfg.showAllMatches = false) (t2e : List (ℕ × T2Row)) :
    ∀ (l : List T1Row) (i : ℕ) (gs : Option (List (ℕ × ℕ))) row,
      row ∈ matchLoop L cfg t2e (enumFrom i l) gs → row.i2.isSome →
      ∃ r1 d1 c, (row.i1, r1) ∈ enumFrom i l ∧ r1.date = some d1 ∧
        (sortCands (rowMatchingList L cfg t2e r1 d1)).head? = some c ∧
        row = mkMatchRow row.i1 c := by
  intro l
  induction l with
  | nil =>
    intro i gs row hrow _
    simp [enumFrom, matchLoop] at hrow
  | cons r rest ih =>
    intro i gs row hrow hsome
    rw [show enumFrom i (r :: rest) = (i, r) :: enumFrom (i + 1) rest from rfl]
      at hrow
    unfold matchLoop at hrow
    rcases List.mem_append.mp hrow with hmem | hmem
    · have hi1 : row.i1 = i := rowResults_i1 row hmem
      unfold rowResults at hmem
      split at hmem
      · rw [h] at hmem
        simp at hmem
      · split at hmem
        · rw [h] at hmem
          simp at hmem
        · rename_i od1 d1 hd1 hnotempty
          simp only [] at hmem
          rcases List.mem_append.mp hmem with hmem2 | hmem2
          · rw [h] at hmem2
            simp at hmem2
          · obtain ⟨c, hc, rfl⟩ := mem_emitGlobal hmem2
            have hsel := hc
            unfold selectRows at hsel
            rw [if_neg (by rw [h]; simp)] at hsel
            rcases hhead : sortCands (rowMatchingList L cfg t2e r d1) with
              _ | ⟨c0, rest0⟩
            · rw [hhead] at hsel
              simp at hsel
            · rw [hhead] at hsel
              have hceq : c = c0 := List.mem_singleton.mp hsel
              refine ⟨r, d1, c, ?_, hd1, ?_, ?_⟩
              · exact List.mem_cons_self _ _
              · rw [hhead, hceq]
                rfl
              · rfl
    · obtain ⟨r1, d1, c, hm, hd, hh, hr⟩ := ih (i + 1) _ row hmem hsome
      exact ⟨r1, d1, c, List.mem_cons_of_mem _ hm, hd, hh, hr⟩

/-- C7 (confirmed): in single-best mode the result table contains at most
one row per primary index, and every matched row is the image of the first
candidate of the stable sort of that primary row's scored candidates by
(date-diff ascending, combined descending). -/
theorem C7_theorem (L : ExtLib) (cfg : MatchConfig) (t1 : List T1Row)
    (t2 : List T2Row) (h : cfg.showAllMatches = false) :
    (∀ k, ((match_tables_std L cfg t1 t2).filter
      (fun r => r.i1 = k)).length ≤ 1) ∧
    (∀ row ∈ match_tables_std L cfg t1 t2, row.i2.isSome →
      ∃ r1 d1 c, (row.i1, r1) ∈ enumFrom 0 t1 ∧ r1.date = some d1 ∧
        (sortCands (rowMatchingList L cfg (enumFrom 0 t2) r1 d1)).head? =
          some c ∧
        row = mkMatchRow row.i1 c) := by
  constructor
  · intro k
    unfold match_tables_std
    split
    · simp
    · exact matchLoop_count h (enumFrom 0 t2) t1 0 _ k
  · intro row hrow hsome
    unfold match_tables_std at hrow
    split at hrow
    · simp at hrow
    · exact matchLoop_matched h (enumFrom 0 t2) t1 0 _ row hrow hsome

/-- C7 witness: the per-index bound applied to a concrete run. -/
theorem C7_witness :
    ((match_tables_std eqLib exCfg [⟨"smith", "ann", some 0⟩]
      [⟨"smith", "ann", some 0⟩]).filter (fun r => r.i1 = 0)).length ≤ 1 :=
  (C7_theorem eqLib exCfg [⟨"smith", "ann", some 0⟩]
    [⟨"smith", "ann", some 0⟩] rfl).1 0

/-! ## Claim C9: ISO round-trip of the date parser -/

theorem natDigitsAux_sound :
    ∀ fuel n, n ≤ fuel → ofDigitsNat (natDigitsAux fuel n) = n := by
  intro fuel
  induction fuel with
  | zero =>
    intro n hn
    have : n = 0 := by omega
    simp [this, natDigitsAux, ofDigitsNat]
  | succ f ih =>
    intro n hn
    unfold natDigitsAux
    split
    · rename_i h0
      simp [h0, ofDigitsNat]
    · rename_i h0
      have hrec := ih (n / 10) (by omega)
      unfold ofDigitsNat at hrec ⊢
      simp only [List.foldr_cons]
      rw [hrec]
      omega

theorem natDigitsAux_lt :
    ∀ fuel n, ∀ x ∈ natDigitsAux fuel n, x < 10 := by
  intro fuel
  induction fuel with
  | zero =>
    intro n x hx
    simp [natDigitsAux] at hx
  | succ f ih =>
    intro n x hx
    unfold natDigitsAux at hx
    split at hx
    · simp at hx
    · rcases List.mem_cons.mp hx with h | h
      · omega
      · exact ih (n / 10) x h

theorem natDigitsAux_len :
    ∀ fuel n k, n ≤ fuel → n < 10 ^ k → (natDigitsAux fuel n).length ≤ k := by
  intro fuel
  induction fuel with
  | zero =>
    intro n k hn hk
    have : n = 0 := by omega
    simp [this, natDigitsAux]
  | succ f ih =>
    intro n k hn hk
    unfold natDigitsAux
    split
    · simp
    · rename_i h0
      have hk0 : k ≠ 0 := by
        intro h
        rw [h] at hk
        simp at hk
        omega
      obtain ⟨k0, rfl⟩ : ∃ k0, k = k0 + 1 := ⟨k - 1, by omega⟩
      have hdiv : n / 10 < 10 ^ k0 := by
        rw [Nat.div_lt_iff_lt_mul (by norm_num)]
        calc n < 10 ^ (k0 + 1) := hk
          _ = 10 ^ k0 * 10 := by ring
      have := ih (n / 10) k0 (by omega) hdiv
      simp only [List.length_cons]
      omega

theorem digitChar_isDigit {d : ℕ} (h : d < 10) :
    (digitChar d).isDigit = true := by
  interval_cases d <;> decide

theorem digVal_digitChar {d : ℕ} (h : d < 10) : digVal (digitChar d) = d := by
  interval_cases d <;> decide

theorem digitChar_not_dash {d : ℕ} (h : d < 10) : digitChar d ≠ '-' := by
  interval_cases d <;> decide

theorem digitChar_not_space {d : ℕ} (h : d < 10) :
    pyIsSpace (digitChar d) = false := by
  interval_cases d <;> decide

theorem padChars_isDigit {w n : ℕ} : ∀ c ∈ padChars w n, c.isDigit = true := by
  intro c hc
  unfold padChars at hc
  rcases List.mem_append.mp hc with h | h
  · rw [List.eq_of_mem_replicate h]
    decide
  · obtain ⟨d, hd, rfl⟩ := List.mem_map.mp (List.mem_reverse.mp h)
    exact digitChar_isDigit (natDigitsAux_lt n n d hd)

theorem padChars_not_dash {w n : ℕ} :
    ∀ c ∈ padChars w n, c ≠ '-' := by
  intro c hc h
  have hd := padChars_isDigit c hc
  rw [h] at hd
  exact absurd hd (by decide)

theorem padChars_len {w n : ℕ} (h : n < 10 ^ w) :
    (padChars w n).length = w := by
  unfold padChars
  rw [List.length_append, List.length_replicate, List.length_reverse,
    List.length_map]
  have := natDigitsAux_len n n w (Nat.le_refl n) h
  unfold natDigits
  omega

theorem foldl_digit_zeros :
    ∀ (k a : ℕ), (List.replicate k '0').foldl
      (fun acc c => 10 * acc + digVal c) a = a * 10 ^ k := by
  intro k
  induction k with
  | zero => intro a; simp
  | succ k0 ih =>
    intro a
    rw [List.replicate_succ, List.foldl_cons, ih]
    show (10 * a + digVal '0') * 10 ^ k0 = a * 10 ^ (k0 + 1)
    rw [show digVal '0' = 0 from rfl]
    ring

theorem foldl_digits_rev :
    ∀ (l : List ℕ) (a : ℕ), (∀ x ∈ l, x < 10) →
      ((l.map digitChar).reverse).foldl (fun acc c => 10 * acc + digVal c) a =
        a * 10 ^ l.length + ofDigitsNat l := by
  intro l
  induction l with
  | nil => intro a _; simp [ofDigitsNat]
  | cons d rest ih =>
    intro a hlt
    rw [List.map_cons, List.reverse_cons, List.foldl_append, List.foldl_cons,
      List.foldl_nil, ih a (fun x hx => hlt x (List.mem_cons_of_mem d hx)),
      digVal_digitChar (hlt d (List.mem_cons_self d rest))]
    unfold ofDigitsNat
    simp only [List.foldr_cons, List.length_cons]
    ring

theorem parseNat_padChars {w n : ℕ} (_h : n < 10 ^ w) :
    parseNatChars (padChars w n) = n := by
  unfold parseNatChars padChars
  rw [List.foldl_append, foldl_digit_zeros,
    foldl_digits_rev (natDigits n) _ (natDigitsAux_lt n n)]
  rw [show (0 : ℕ) * 10 ^ (w - (natDigits n).length) = 0 from by ring]
  rw [show (0 : ℕ) * 10 ^ (natDigits n).length = 0 from by ring]
  rw [Nat.zero_add]
  exact natDigitsAux_sound n n (Nat.le_refl n)

theorem splitSepsAux_no_sep {sep : Char → Bool} :
    ∀ (A acc : List Char), (∀ c ∈ A, sep c = false) →
      splitSepsAux sep A acc = [acc.reverse ++ A] := by
  intro A
  induction A with
  | nil => intro acc _; simp [splitSepsAux]
  | cons c rest ih =>
    intro acc hns
    unfold splitSepsAux
    rw [if_neg (by rw [hns c (List.mem_cons_self c rest)]; simp)]
    rw [ih (c :: acc) (fun x hx => hns x (List.mem_cons_of_mem c hx))]
    simp

theorem splitSepsAux_sep_split {sep : Char → Bool} :
    ∀ (A : List Char) (c : Char) (rest acc : List Char),
      (∀ x ∈ A, sep x = false) → sep c = true →
      splitSepsAux sep (A ++ c :: rest) acc =
        (acc.reverse ++ A) :: splitSeps sep rest := by
  intro A
  induction A with
  | nil =>
    intro c rest acc _ hc
    rw [List.nil_append]
    unfold splitSepsAux
    rw [if_pos hc]
    simp [splitSeps]
  | cons a A0 ih =>
    intro c rest acc hns hc
    rw [List.cons_append]
    unfold splitSepsAux
    rw [if_neg (by rw [hns a (List.mem_cons_self a A0)]; simp)]
    rw [ih c rest (a :: acc) (fun x hx => hns x (List.mem_cons_of_mem a hx)) hc]
    simp

theorem daysInMonth_le (y m : ℕ) : daysInMonth y m ≤ 31 := by
  unfold daysInMonth
  split
  · omega
  · split
    · omega
    · split <;> omega

theorem strptimeYmd_isoRender {d : DateD} (h : ValidDate d) :
    strptimeYmd (isoRender d) = some d := by
  obtain ⟨hy1, hy2, hm1, hm2, hd1, hd2⟩ := h
  have h4 : (10:ℕ) ^ 4 = 10000 := by norm_num
  have h2 : (10:ℕ) ^ 2 = 100 := by norm_num
  have hylt : d.year < 10 ^ 4 := by omega
  have hmlt : d.month < 10 ^ 2 := by omega
  have hdlt : d.day < 10 ^ 2 := by
    have := daysInMonth_le d.year d.month
    omega
  have hsplit : splitSeps (fun c => c = '-') (isoRender d).data =
      [padChars 4 d.year, padChars 2 d.month, padChars 2 d.day] := by
    rw [show (isoRender d).data = padChars 4 d.year ++ '-' ::
      (padChars 2 d.month ++ '-' :: padChars 2 d.day) from rfl]
    unfold splitSeps
    rw [splitSepsAux_sep_split (padChars 4 d.year) '-' _ []
      (fun x hx => decide_eq_false (padChars_not_dash x hx)) (by decide)]
    unfold splitSeps
    rw [splitSepsAux_sep_split (padChars 2 d.month) '-' _ []
      (fun x hx => decide_eq_false (padChars_not_dash x hx)) (by decide)]
    unfold splitSeps
    rw [splitSepsAux_no_sep (padChars 2 d.day) []
      (fun x hx => decide_eq_false (padChars_not_dash x hx))]
    simp
  unfold strptimeYmd
  rw [hsplit]
  simp only []
  rw [if_pos ?side]
  case side =>
    refine ⟨?_, padChars_len hylt, ?_, ?_, ?_, ?_, ?_, ?_⟩
    · unfold allDigits
      exact List.all_eq_true.mpr padChars_isDigit
    · unfold allDigits
      exact List.all_eq_true.mpr padChars_isDigit
    · rw [padChars_len hmlt]; omega
    · rw [padChars_len hmlt]
    · unfold allDigits
      exact List.all_eq_true.mpr padChars_isDigit
    · rw [padChars_len hdlt]; omega
    · rw [padChars_len hdlt]
  rw [show parseNatChars (padChars 4 d.year) = d.year from parseNat_padChars hylt,
    show parseNatChars (padChars 2 d.month) = d.month from parseNat_padChars hmlt,
    show parseNatChars (padChars 2 d.day) = d.day from parseNat_padChars hdlt]
  rw [if_pos ?valid]
  case valid =>
    exact ⟨hy1, hy2, hm1, hm2, hd1, hd2⟩

theorem dropWhile_all_false {p : Char → Bool} :
    ∀ l : List Char, (∀ c ∈ l, p c = false) → l.dropWhile p = l := by
  intro l h
  cases l with
  | nil => rfl
  | cons c rest =>
    rw [List.dropWhile_cons, if_neg]
    rw [h c (List.mem_cons_self c rest)]
    simp

theorem isoRender_no_space {d : DateD} :
    ∀ c ∈ (isoRender d).data, pyIsSpace c = false := by
  intro c hc
  rw [show (isoRender d).data = padChars 4 d.year ++ '-' ::
    (padChars 2 d.month ++ '-' :: padChars 2 d.day) from rfl] at hc
  have hdig : ∀ w n, ∀ x ∈ padChars w n, pyIsSpace x = false := by
    intro w n x hx
    have hxd := padChars_isDigit x hx
    cases hsp : pyIsSpace x
    · rfl
    · exfalso
      unfold pyIsSpace at hsp
      rcases (by simpa using hsp : x = ' ' ∨ x = '\t' ∨ x = '\n' ∨ x = '\r' ∨
        x = '\x0b' ∨ x = '\x0c') with h | h | h | h | h | h <;>
        rw [h] at hxd <;> exact absurd hxd (by decide)
  rcases List.mem_append.mp hc with h | h
  · exact hdig 4 d.year c h
  · rcases List.mem_cons.mp h with h | h
    · rw [h]; decide
    · rcases List.mem_append.mp h with h | h
      · exact hdig 2 d.month c h
      · rcases List.mem_cons.mp h with h | h
        · rw [h]; decide
        · exact hdig 2 d.day c h

theorem pyStrip_isoRender {d : DateD} : pyStrip (isoRender d) = isoRender d := by
  unfold pyStrip pyStripL
  rw [dropWhile_all_false _ isoRender_no_space]
  rw [dropWhile_all_false _ (by
    intro c hc
    exact isoRender_no_space c (List.mem_reverse.mp hc))]
  rw [List.reverse_reverse]

theorem isoRender_len {d : DateD} (h : ValidDate d) :
    (isoRender d).data.length = 10 := by
  obtain ⟨hy1, hy2, hm1, hm2, hd1, hd2⟩ := h
  have h4 : (10:ℕ) ^ 4 = 10000 := by norm_num
  have h2 : (10:ℕ) ^ 2 = 100 := by norm_num
  have hylt : d.year < 10 ^ 4 := by omega
  have hmlt : d.month < 10 ^ 2 := by omega
  have hdlt : d.day < 10 ^ 2 := by
    have := daysInMonth_le d.year d.month
    omega
  rw [show (isoRender d).data = padChars 4 d.year ++ '-' ::
    (padChars 2 d.month ++ '-' :: padChars 2 d.day) from rfl]
  simp only [List.length_append, List.length_cons]
  rw [padChars_len hylt, padChars_len hmlt, padChars_len hdlt]

theorem ne_of_data_length {s t : String}
    (h : s.data.length ≠ t.data.length) : s ≠ t := by
  intro he
  exact h (congrArg (fun x => x.data.length) he)

/-- C9 (confirmed): re-parsing the canonical ISO rendering of any
successfully parsed calendar date succeeds and returns the same date, for
every pair of sound pandas oracles and every tail of the strptime format
list: the rendering is not a null sentinel, and either an oracle returns the
date itself or the `%Y-%m-%d` entry of `_try_common_formats` parses it
exactly. -/
theorem C9_theorem (O : DateOracles) (h1 : OracleSound O.monthFirst)
    (h2 : OracleSound O.dayFirst) (s : String) (d : DateD)
    (_hparse : parse_date_safe_str O s = some d) (hval : ValidDate d) :
    parse_date_safe_str O (isoRender d) = some d := by
  have hlen : (isoRender d).data.length = 10 := isoRender_len hval
  have hlowlen : (pyLower (isoRender d)).data.length = 10 := by
    simp [pyLower, hlen]
  have hlow : pyLower (isoRender d) ≠ "nan" ∧
      pyLower (isoRender d) ≠ "none" ∧ pyLower (isoRender d) ≠ "null" := by
    refine ⟨ne_of_data_length ?_, ne_of_data_length ?_, ne_of_data_length ?_⟩
      <;> rw [hlowlen] <;> decide
  unfold parse_date_safe_str
  rw [pyStrip_isoRender]
  rw [if_neg (by
    push_neg
    obtain ⟨ha, hb, hc⟩ := hlow
    exact ⟨ne_of_data_length (by rw [hlen]; decide), ha, hb, hc⟩)]
  rcases h1 d hval with hmf | hmf <;> rw [hmf]
  rcases h2 d hval with hdf | hdf <;> rw [hdf]
  rw [show tryCommonFormats O.otherFormats (isoRender d) =
    some d from by
      unfold tryCommonFormats
      rw [strptimeYmd_isoRender hval]]

theorem errOracles_sound_mf : OracleSound errOracles.monthFirst :=
  fun _ _ => Or.inr rfl

theorem errOracles_sound_df : OracleSound errOracles.dayFirst :=
  fun _ _ => Or.inr rfl

/-- C9 witness: "2024-01-15" parses (through the strptime path) and the
re-parse of the rendered date gives the same date. -/
theorem C9_witness :
    parse_date_safe_str errOracles (isoRender ⟨2024, 1, 15⟩) =
      some ⟨2024, 1, 15⟩ :=
  C9_theorem errOracles errOracles_sound_mf errOracles_sound_df
    "2024-01-15" ⟨2024, 1, 15⟩ (by decide) (by decide)

end FuzzyMatcher
